import Mathlib

/-!
Substring search of `common/utils.c` (L-SMASH).

A shallow embedding of the search subsystem of `common/utils.c`:

* `lsmash_memmem_naive`, the scalar scanner (lines 37-55);
* `lsmash_memmem_sse42`, the vector scanner built on `_mm_cmpestri` (lines 57-82);
* `lsmash_init_sse` and the function pointer `lsmash_memmem` (lines 34-35, 84-91);
* `lsmash_compare_dts` and `lsmash_compare_cts` (lines 196-215);
* the indentation written by `lsmash_ifprintf` (lines 162-194).

Modelling conventions.

* A buffer is a `List Byte`; a pointer into it is a natural-number offset, so a
  returned pointer `haystack + i` is `some i` and `NULL` is `none`.
* The vector scanner is embedded twice. `sse42_loop_int32` and
  `lsmash_memmem_sse42_int32` have the types of the source: the counter
  `offset` is an `int`, and the conversions between `int` and `size_t` are
  written out with their wrap-around. `sse42_loop` and `lsmash_memmem_sse42`
  take the counter as an exact integer; they coincide with the former on
  haystacks of at most `2 ^ 31 - 17` bytes and serve as the reference there.
  Past that length the `int` counter wraps and the two differ.
* The 16-byte stack buffer `tmp_buf` is not initialised by the source, so its
  prior contents are an explicit argument of the vector scanner.
* A call through the pointer `lsmash_memmem` runs the scalar scanner or the
  vector scanner with the types of the source.
* `_mm_cmpestri`, `memcmp`, `memcpy`, `_mm_loadu_si128` and `__cpuid` are
  primitives of the platform; they are modelled from their documented
  behaviour.
* `uint64_t` subtraction and the cast to `int64_t` are written with explicit
  `% 2 ^ 64`; what `fprintf` writes is a `String`.
-/

namespace LSmash

/-! ## Data model -/

/-- One byte of a buffer. -/
abbrev Byte := Fin 256

/-- A 16-byte value: an `__m128i` register seen as bytes, or `char tmp_buf[16]`. -/
abbrev M128 := Fin 16 → Byte

/-- Byte `i` of a 16-byte value (indices past 15 are never read by the code). -/
def M128.byte (v : M128) (i : Nat) : Byte :=
  if h : i < 16 then v ⟨i, h⟩ else 0

/-- Byte `i` of a buffer; every read made by the code is in range. -/
def rd (buf : List Byte) (i : Nat) : Byte := buf.getD i 0

/-! ## Platform primitives -/

/-- The libc `memcmp(s1 + p1, s2 + p2, n)`: zero when the `n` bytes agree, otherwise the
difference of the first pair of bytes that differ. -/
def memcmp (s1 : List Byte) (p1 : Nat) (s2 : List Byte) (p2 : Nat) : Nat → Int
  | 0 => 0
  | n + 1 =>
    if rd s1 p1 = rd s2 p2 then memcmp s1 (p1 + 1) s2 (p2 + 1) n
    else ((rd s1 p1).val : Int) - ((rd s2 p2).val : Int)

/-- The libc `memcpy(tmp_buf, src + p, n)` into the 16-byte buffer: the first `n` bytes are
replaced, the others keep their prior contents. -/
def memcpy (tmp_buf : M128) (src : List Byte) (p n : Nat) : M128 :=
  fun i => if i.val < n then rd src (p + i.val) else tmp_buf i

/-- The unaligned load `_mm_loadu_si128(haystack + offset)` of 16 bytes. -/
def loadu (haystack : List Byte) (offset : Nat) : M128 :=
  fun i => rd haystack (offset + i.val)

/-- Comparison of needle element `i` with data element `j` in the "equal ordered"
aggregation of `PCMPESTRI`, with the validity overrides of that mode: an element of the
needle register at or past `la` is invalid and forces `true`; otherwise an element of the
data register at or past `lb` is invalid and forces `false`. -/
def boolRes (a : M128) (la : Nat) (b : M128) (lb : Nat) (j i : Nat) : Bool :=
  if la ≤ i then true
  else if lb ≤ j then false
  else decide (a.byte i = b.byte j)

/-- Bit `j` of the intermediate result of `PCMPESTRI` in "equal ordered" mode: the
needle elements `0 .. 15 - j` all compare `true` against data elements `j .. 15`. -/
def intRes1 (a : M128) (la : Nat) (b : M128) (lb : Nat) (j : Nat) : Bool :=
  (List.range (16 - j)).all fun i => boolRes a la b lb (j + i) i

/-- Index of the least significant set bit among bits `j .. j + k - 1`, or `16`. -/
def lsbFrom (bits : Nat → Bool) : Nat → Nat → Nat
  | 0, _ => 16
  | k + 1, j => if bits j then j else lsbFrom bits k (j + 1)

/-- The intrinsic `_mm_cmpestri(a, la, b, lb, IMM8)` with
`IMM8 = _SIDD_UBYTE_OPS | _SIDD_CMP_EQUAL_ORDERED | _SIDD_LEAST_SIGNIFICANT`:
the index of the least significant set bit of the intermediate result, `16` when no bit
is set. -/
def cmpestri (a : M128) (la : Nat) (b : M128) (lb : Nat) : Nat :=
  lsbFrom (intRes1 a la b lb) 16 0

/-! ## The scalar scanner -/

/-- The `for` loop of `lsmash_memmem_naive` (lines 47-52), from the position `begin`. -/
def naive_loop (haystack needle : List Byte) (last_possible begin : Nat) : Option Nat :=
  if begin ≤ last_possible then
    if rd haystack begin = rd needle 0 ∧
        memcmp haystack (begin + 1) needle 1 (needle.length - 1) = 0 then
      some begin
    else naive_loop haystack needle last_possible (begin + 1)
  else none
termination_by last_possible + 1 - begin

/-- The function `lsmash_memmem_naive` (lines 37-55). -/
def lsmash_memmem_naive (haystack needle : List Byte) : Option Nat :=
  let last_possible := haystack.length - needle.length
  if needle.length = 0 then some 0
  else if haystack.length < needle.length then none
  else naive_loop haystack needle last_possible 0

/-! ## The vector scanner -/

/-- How the stride loop of `lsmash_memmem_sse42` ends: by the `return` of line 71, or by
its guard failing with the counter at `offset`. -/
inductive LoopEnd where
  | ret (p : Nat)
  | fallthrough (offset : Nat)
  deriving DecidableEq

/-- The stride loop of `lsmash_memmem_sse42` (lines 67-73), from the counter value
`offset`, with the counter taken as an exact integer: the loop the source runs as long as
`offset + 16` does not leave the range of `int`. The loop with the `int` counter of the
source is `sse42_loop_int32`. -/
def sse42_loop (haystack : List Byte) (needle : M128) (needle_len offset : Nat) : LoopEnd :=
  if offset + 16 ≤ haystack.length then
    let data := loadu haystack offset
    let r := cmpestri needle needle_len data 16
    if r + needle_len ≤ 16 then LoopEnd.ret (offset + r)
    else sse42_loop haystack needle needle_len (offset + (16 - needle_len + 1))
  else LoopEnd.fallthrough offset
termination_by haystack.length - offset

/-- The function `lsmash_memmem_sse42` (lines 57-82) with the counter `offset` taken as an
exact integer; `tmp_buf` is the content of the staging buffer at entry. It returns what
the source returns on every haystack of at most `2 ^ 31 - 17` bytes (`sse42_int32_eq`);
the function with the `int` counter of the source is `lsmash_memmem_sse42_int32`. -/
def lsmash_memmem_sse42 (tmp_buf : M128) (haystack needle_ : List Byte) : Option Nat :=
  if needle_.length > 16 then lsmash_memmem_naive haystack needle_
  else if haystack.length < needle_.length then none
  else
    let tmp_buf1 := memcpy tmp_buf needle_ 0 needle_.length
    let needle : M128 := tmp_buf1
    match sse42_loop haystack needle needle_.length 0 with
    | LoopEnd.ret p => some p
    | LoopEnd.fallthrough offset =>
      let remain := haystack.length - offset
      let tmp_buf2 := memcpy tmp_buf1 haystack offset remain
      let data : M128 := tmp_buf2
      let r := cmpestri needle needle_.length data remain
      if r + needle_.length ≤ remain then some (offset + r) else none

/-! ## The dispatch gate -/

/-- The values the function pointer `lsmash_memmem` takes: `0` (its initialiser) or the
address of one of the two scanners. -/
inductive FnPtr where
  | null
  | memmem_naive
  | memmem_sse42
  deriving DecidableEq

/-- The processor feature query: `hw leaf k` is word `k` of `cpuinfo` (EAX, EBX, ECX, EDX
as bit patterns) after `__cpuid(cpuinfo, leaf)`. -/
abbrev Cpuid := Nat → Fin 4 → Nat

/-- Process-wide state: the pointer `lsmash_memmem`, and a ghost count of the `__cpuid`
instructions executed so far. -/
structure Proc where
  lsmash_memmem : FnPtr
  cpuid_calls : Nat
  deriving DecidableEq

/-- The state at process start: `lsmash_memmem = 0`, no query made. -/
def Proc.start : Proc := ⟨FnPtr.null, 0⟩

/-- The function `lsmash_init_sse` (lines 84-91) run on a processor answering `hw`. -/
def lsmash_init_sse (hw : Cpuid) (s : Proc) : Proc :=
  if s.lsmash_memmem = FnPtr.null then
    let cpuinfo := hw 1
    let sse42_available := cpuinfo 2 &&& (1 <<< 20)
    { lsmash_memmem := if sse42_available ≠ 0 then FnPtr.memmem_sse42 else FnPtr.memmem_naive,
      cpuid_calls := s.cpuid_calls + 1 }
  else s

/-- A sequence of `lsmash_init_sse` calls; `hws` lists what the query would report at
each call. -/
def init_calls (hws : List Cpuid) (s : Proc) : Proc :=
  hws.foldl (fun st hw => lsmash_init_sse hw st) s

/-! ## Specification vocabulary -/

/-- The needle `N` occurs in `H` at offset `i`: `i + len N ≤ len H` and
`H[i .. i + len N) = N`. -/
def MatchAt (H N : List Byte) (i : Nat) : Prop :=
  i + N.length ≤ H.length ∧ (H.drop i).take N.length = N

instance (H N : List Byte) (i : Nat) : Decidable (MatchAt H N i) :=
  inferInstanceAs (Decidable (i + N.length ≤ H.length ∧ (H.drop i).take N.length = N))

/-- Offset `i` is the first occurrence of `N` in `H`. -/
def FirstMatch (H N : List Byte) (i : Nat) : Prop :=
  MatchAt H N i ∧ ∀ j, j < i → ¬ MatchAt H N j

/-- What a correct search returns: the first occurrence, or `none` when there is none. -/
def SearchSpec (H N : List Byte) : Option Nat → Prop
  | some i => FirstMatch H N i
  | none => ∀ j, ¬ MatchAt H N j

/-- What the stride loop of the vector scanner establishes when no occurrence starts before
the counter: a returned position is the first occurrence; on fall-through the counter
is inside the haystack, fewer than 16 bytes remain, and no occurrence starts before it. -/
def LoopPost (H N : List Byte) : LoopEnd → Prop
  | LoopEnd.ret p => FirstMatch H N p
  | LoopEnd.fallthrough o =>
    o ≤ H.length ∧ H.length < o + 16 ∧ ∀ j, j < o → ¬ MatchAt H N j

/-! ## The offsets of the full-lane loads, exact counter -/

/-- The offsets at which the exact-counter loop `sse42_loop` performs its full-lane load
(line 68), in order: the same loop, recording `offset` at each iteration. -/
def sse42_lanes (haystack : List Byte) (needle : M128) (needle_len offset : Nat) : List Nat :=
  if offset + 16 ≤ haystack.length then
    let data := loadu haystack offset
    let r := cmpestri needle needle_len data 16
    if r + needle_len ≤ 16 then [offset]
    else offset :: sse42_lanes haystack needle needle_len (offset + (16 - needle_len + 1))
  else []
termination_by haystack.length - offset

/-! ## The vector scanner with a 32-bit counter -/

/-- Conversion of an integer to `int`: 32 bits, two's complement, wrapping. -/
def toInt32 (x : Int) : Int := (x + 2 ^ 31) % 2 ^ 32 - 2 ^ 31

/-- Conversion of an integer to `size_t`: 64 bits, unsigned, wrapping. -/
def toSizeT (x : Int) : Int := x % 2 ^ 64

/-- Byte at `buf + i` for a signed displacement `i`; the model of memory holds `0` outside
the buffer. -/
def rdZ (buf : List Byte) (i : Int) : Byte := if 0 ≤ i then rd buf i.toNat else 0

/-- The load `_mm_loadu_si128(haystack + offset)` with `int offset`. -/
def loaduZ (haystack : List Byte) (offset : Int) : M128 :=
  fun i => rdZ haystack (offset + i.val)

/-- The copy `memcpy(tmp_buf, haystack + offset, remain)` with `int offset` and `size_t`
count. -/
def memcpyZ (tmp_buf : M128) (src : List Byte) (p n : Int) : M128 :=
  fun i => if (i.val : Int) < n then rdZ src (p + i.val) else tmp_buf i

/-- How the stride loop ends when the counter is an `int`. -/
inductive LoopEnd32 where
  | ret (p : Int)
  | fallthrough (offset : Int)
  deriving DecidableEq

/-- The stride loop of `lsmash_memmem_sse42` (lines 67-73) with the types of the source:
`offset` is an `int`, so `offset + 16` is computed in `int` and converted to `size_t` for
the comparison, and `offset += 16 - needle_len + 1` is computed in `size_t` and converted
back to `int`. The first argument bounds the number of iterations; `none` when it is
exhausted. -/
def sse42_loop_int32 (haystack : List Byte) (needle : M128) (needle_len : Nat) :
    Nat → Int → Option LoopEnd32
  | 0, _ => none
  | fuel + 1, offset =>
    if toSizeT (toInt32 (offset + 16)) ≤ (haystack.length : Int) then
      let data := loaduZ haystack offset
      let r := cmpestri needle (toInt32 needle_len).natAbs data 16
      if toSizeT ((r : Int) + needle_len) ≤ 16 then some (LoopEnd32.ret (offset + r))
      else sse42_loop_int32 haystack needle needle_len fuel
        (toInt32 (toSizeT (toSizeT offset + toSizeT (toSizeT (16 - (needle_len : Int)) + 1))))
    else some (LoopEnd32.fallthrough offset)

/-- The function `lsmash_memmem_sse42` (lines 57-82) with the 32-bit counter; the returned
pointer is its signed displacement from `haystack`. The outer `none` means the iteration
bound `fuel` was exhausted. -/
def lsmash_memmem_sse42_int32 (fuel : Nat) (tmp_buf : M128) (haystack needle_ : List Byte) :
    Option (Option Int) :=
  if needle_.length > 16 then some ((lsmash_memmem_naive haystack needle_).map Int.ofNat)
  else if haystack.length < needle_.length then some none
  else
    let tmp_buf1 := memcpy tmp_buf needle_ 0 needle_.length
    let needle : M128 := tmp_buf1
    match sse42_loop_int32 haystack needle needle_.length fuel 0 with
    | none => none
    | some (LoopEnd32.ret p) => some (some p)
    | some (LoopEnd32.fallthrough offset) =>
      let remain := toSizeT ((haystack.length : Int) - toSizeT offset)
      let tmp_buf2 := memcpyZ tmp_buf1 haystack offset remain
      let data : M128 := tmp_buf2
      let r := cmpestri needle (toInt32 needle_.length).natAbs data (toInt32 remain).natAbs
      if toSizeT ((r : Int) + needle_.length) ≤ remain then some (some (offset + r))
      else some none

/-- A loop outcome of the exact model, read as an outcome of the 32-bit model. -/
def LoopEnd.toInt32 : LoopEnd → LoopEnd32
  | LoopEnd.ret p => LoopEnd32.ret p
  | LoopEnd.fallthrough o => LoopEnd32.fallthrough o

/-- The values the counter `offset` takes in a run of the stride loop from `offset`: one
per evaluation of the guard of line 67. -/
def sse42_counters (haystack : List Byte) (needle : M128) (needle_len offset : Nat) :
    List Nat :=
  sse42_lanes haystack needle needle_len offset ++
    match sse42_loop haystack needle needle_len offset with
    | LoopEnd.ret _ => []
    | LoopEnd.fallthrough o => [o]

/-! ## Calls through the function pointer -/

/-- What a call through the pointer `lsmash_memmem` yields: nothing defined when the
pointer is null, no result within the iteration bound, or the returned pointer (its
displacement from `haystack`, `none` for `NULL`). -/
inductive CallResult where
  | undefined
  | unfinished
  | returned (p : Option Int)
  deriving DecidableEq

/-- A call `lsmash_memmem(haystack, haystack_len, needle, needle_len)` through the
pointer `f`: the scalar scanner, or the vector scanner with the types of the source
(`fuel` bounds the iterations of its loop). -/
def call_lsmash_memmem (fuel : Nat) (f : FnPtr) (tmp_buf : M128)
    (haystack needle : List Byte) : CallResult :=
  match f with
  | FnPtr.null => CallResult.undefined
  | FnPtr.memmem_naive =>
    CallResult.returned ((lsmash_memmem_naive haystack needle).map Int.ofNat)
  | FnPtr.memmem_sse42 =>
    match lsmash_memmem_sse42_int32 fuel tmp_buf haystack needle with
    | none => CallResult.unfinished
    | some p => CallResult.returned p

/-! ## The windows examined by the vector scanner -/

/-- A window compared against the needle: the full lane of 16 bytes loaded at
`haystack + offset` (lines 68-69), or the remainder of `remain` bytes copied from
`haystack + offset` (lines 74-77), of which the register holds the first 16. -/
inductive Window where
  | lane (offset : Int)
  | remainder (offset : Int) (remain : Int)
  deriving DecidableEq

/-- The stride loop of `lsmash_memmem_sse42` with the types of the source, as
`sse42_loop_int32`, returning with the outcome the offsets at which it has performed the
load of line 68, in order. -/
def sse42_scan_int32 (haystack : List Byte) (needle : M128) (needle_len : Nat) :
    Nat → Int → Option (LoopEnd32 × List Int)
  | 0, _ => none
  | fuel + 1, offset =>
    if toSizeT (toInt32 (offset + 16)) ≤ (haystack.length : Int) then
      let data := loaduZ haystack offset
      let r := cmpestri needle (toInt32 needle_len).natAbs data 16
      if toSizeT ((r : Int) + needle_len) ≤ 16 then
        some (LoopEnd32.ret (offset + r), [offset])
      else
        match sse42_scan_int32 haystack needle needle_len fuel
          (toInt32 (toSizeT (toSizeT offset + toSizeT (toSizeT (16 - (needle_len : Int)) + 1))))
        with
        | none => none
        | some (e, lanes) => some (e, offset :: lanes)
    else some (LoopEnd32.fallthrough offset, [])

/-- The windows of a run: the full lanes, then the remainder when the loop falls through,
with `remain = haystack_len - offset` computed in `size_t` (line 74). -/
def windows_of (haystack_len : Nat) (e : LoopEnd32) (lanes : List Int) : List Window :=
  lanes.map Window.lane ++
    match e with
    | LoopEnd32.ret _ => []
    | LoopEnd32.fallthrough offset =>
      [Window.remainder offset (toSizeT ((haystack_len : Int) - toSizeT offset))]

/-- The window holds the whole candidate `p .. p + needle_len - 1` and the acceptance test
passes for the in-window index `p - offset`: in a full lane `r + needle_len <= 16`
(line 70); in the remainder the candidate lies in the 16 bytes of the register and
`r + needle_len <= remain` (line 78). -/
def Window.covers (needle_len p : Nat) : Window → Bool
  | Window.lane o => decide (o ≤ (p : Int) ∧ (p : Int) - o + needle_len ≤ 16)
  | Window.remainder o remain =>
    decide (o ≤ (p : Int) ∧ (p : Int) - o + needle_len ≤ 16 ∧
      (p : Int) - o + needle_len ≤ remain)

/-- The windows of the exact-counter loop started at `offset`, in the form of
`windows_of`; a run of at most `2 ^ 31 - 17` bytes examines these. -/
def exact_windows (haystack : List Byte) (needle : M128) (needle_len offset : Nat) :
    List Window :=
  windows_of haystack.length (sse42_loop haystack needle needle_len offset).toInt32
    (List.map (fun (o : Nat) => (o : Int)) (sse42_lanes haystack needle needle_len offset))

/-! ## A haystack longer than the counter can address -/

/-- A haystack of `2 ^ 31 + 16` bytes: `2 ^ 31 + 14` bytes `'Q'` followed by `"ZZ"`. -/
def haystack_2g : List Byte := List.replicate (2 ^ 31 + 14) 81 ++ [90, 90]

/-! ## Timestamp comparison -/

/-- The record `lsmash_media_ts_t` (declared in `lsmash.h`): two `uint64_t` fields, held
as their values. -/
structure lsmash_media_ts_t where
  dts : Nat
  cts : Nat
  deriving DecidableEq

/-- Subtraction of `uint64_t` values: modulo `2 ^ 64`. -/
def subU64 (x y : Nat) : Nat := (x % 2 ^ 64 + (2 ^ 64 - y % 2 ^ 64)) % 2 ^ 64

/-- The cast `(int64_t)` of a `uint64_t` value: two's complement. -/
def toInt64 (x : Nat) : Int :=
  if x % 2 ^ 64 < 2 ^ 63 then ((x % 2 ^ 64 : Nat) : Int)
  else ((x % 2 ^ 64 : Nat) : Int) - 2 ^ 64

/-- The function `lsmash_compare_dts` (lines 197-205). -/
def lsmash_compare_dts (a b : lsmash_media_ts_t) : Int :=
  let diff := toInt64 (subU64 a.dts b.dts)
  if diff > 0 then 1 else (if diff = 0 then 0 else -1)

/-- The function `lsmash_compare_cts` (lines 207-215). -/
def lsmash_compare_cts (a b : lsmash_media_ts_t) : Int :=
  let diff := toInt64 (subU64 a.cts b.cts)
  if diff > 0 then 1 else (if diff = 0 then 0 else -1)

/-! ## Indented printing -/

/-- The table `indent_string` of `lsmash_ifprintf` (lines 173-186). -/
def indent_string : List String :=
  ["",
   "    ",
   "        ",
   "            ",
   "                ",
   "                    ",
   "                        ",
   "                            ",
   "                                ",
   "                                    ",
   "                                        "]

/-- The subscript `table[i]` with an `int` index: defined only inside the array. -/
def subscript (table : List String) (i : Int) : Option String :=
  if 0 ≤ i then table[i.toNat]? else none

/-- The loop of lines 190-191: `fprintf(fp, "    ")` while `i < indent`; `out` is what has
been written so far. -/
def ifprintf_loop (indent i : Int) (out : String) : String :=
  if i < indent then ifprintf_loop indent (i + 1) (out ++ "    ") else out
termination_by (indent - i).toNat
decreasing_by omega

/-- What `lsmash_ifprintf` (lines 171-191) writes to `fp` before the formatted text, for
the argument `indent`; `none` when the table is subscripted outside its bounds. -/
def lsmash_ifprintf_indent (indent : Int) : Option String :=
  if indent ≤ 10 then subscript indent_string indent
  else some (ifprintf_loop indent 0 "")

/-! ## Reading buffers -/

theorem rd_eq_getElem (buf : List Byte) (i : Nat) (h : i < buf.length) : rd buf i = buf[i] := by
  simp [rd, List.getD_eq_getElem?_getD, List.getElem?_eq_getElem h]

theorem matchAt_iff (H N : List Byte) (i : Nat) :
    MatchAt H N i ↔ i + N.length ≤ H.length ∧ ∀ k, k < N.length → rd H (i + k) = rd N k := by
  unfold MatchAt
  constructor
  · rintro ⟨hle, heq⟩
    refine ⟨hle, fun k hk => ?_⟩
    have h1 : rd N k = N[k] := rd_eq_getElem N k hk
    have h2 : rd H (i + k) = H[i + k] := rd_eq_getElem H (i + k) (by omega)
    have h3 : ((H.drop i).take N.length)[k]? = N[k]? := by rw [heq]
    rw [List.getElem?_take, if_pos hk, List.getElem?_drop,
      List.getElem?_eq_getElem (by omega : i + k < H.length), List.getElem?_eq_getElem hk] at h3
    rw [h1, h2]
    exact Option.some.inj h3
  · rintro ⟨hle, hall⟩
    refine ⟨hle, ?_⟩
    apply List.ext_getElem?
    intro k
    by_cases hk : k < N.length
    · have h1 : rd N k = N[k] := rd_eq_getElem N k hk
      have h2 : rd H (i + k) = H[i + k] := rd_eq_getElem H (i + k) (by omega)
      rw [List.getElem?_take, if_pos hk, List.getElem?_drop,
        List.getElem?_eq_getElem (by omega : i + k < H.length), List.getElem?_eq_getElem hk,
        ← h1, ← h2, hall k hk]
    · rw [List.getElem?_take, if_neg hk, List.getElem?_eq_none (by omega)]

theorem firstMatch_unique {H N : List Byte} {i j : Nat}
    (hi : FirstMatch H N i) (hj : FirstMatch H N j) : i = j := by
  rcases Nat.lt_trichotomy i j with h | h | h
  · exact absurd hi.1 (hj.2 i h)
  · exact h
  · exact absurd hj.1 (hi.2 j h)

theorem searchSpec_unique {H N : List Byte} {r s : Option Nat}
    (hr : SearchSpec H N r) (hs : SearchSpec H N s) : r = s := by
  cases r with
  | none =>
    cases s with
    | none => rfl
    | some j => exact absurd hs.1 (hr j)
  | some i =>
    cases s with
    | none => exact absurd hr.1 (hs i)
    | some j => rw [firstMatch_unique hr hs]

/-! ## The scalar scanner meets the specification -/

theorem memcmp_eq_zero_iff (s1 : List Byte) (s2 : List Byte) (n p1 p2 : Nat) :
    memcmp s1 p1 s2 p2 n = 0 ↔ ∀ k, k < n → rd s1 (p1 + k) = rd s2 (p2 + k) := by
  induction n generalizing p1 p2 with
  | zero => simp [memcmp]
  | succ n ih =>
    unfold memcmp
    by_cases h : rd s1 p1 = rd s2 p2
    · rw [if_pos h, ih]
      constructor
      · intro hall k hk
        cases k with
        | zero => simpa using h
        | succ k =>
          have := hall k (by omega)
          rw [show p1 + (k + 1) = p1 + 1 + k by omega, show p2 + (k + 1) = p2 + 1 + k by omega]
          exact this
      · intro hall k hk
        have := hall (k + 1) (by omega)
        rw [show p1 + (k + 1) = p1 + 1 + k by omega, show p2 + (k + 1) = p2 + 1 + k by omega] at this
        exact this
    · rw [if_neg h]
      constructor
      · intro h0
        exfalso
        apply h
        apply Fin.ext
        omega
      · intro hall
        exact absurd (by simpa using hall 0 (by omega)) h

/-- The test made at each position by the scalar loop is the byte-for-byte comparison. -/
theorem naive_test_iff (H N : List Byte) (b : Nat) (hN : N.length ≠ 0)
    (hb : b + N.length ≤ H.length) :
    (rd H b = rd N 0 ∧ memcmp H (b + 1) N 1 (N.length - 1) = 0) ↔ MatchAt H N b := by
  rw [matchAt_iff, memcmp_eq_zero_iff]
  constructor
  · rintro ⟨h0, hrest⟩
    refine ⟨hb, fun k hk => ?_⟩
    cases k with
    | zero => simpa using h0
    | succ k =>
      have := hrest k (by omega)
      rw [show b + (k + 1) = b + 1 + k by omega, show k + 1 = 1 + k by omega]
      exact this
  · rintro ⟨_, hall⟩
    refine ⟨by simpa using hall 0 (by omega), fun k hk => ?_⟩
    have := hall (k + 1) (by omega)
    rw [show b + (k + 1) = b + 1 + k by omega, show k + 1 = 1 + k by omega] at this
    exact this

theorem naive_loop_spec (H N : List Byte) (hN : N.length ≠ 0) (hle : N.length ≤ H.length)
    (begin : Nat) (hpre : ∀ j, j < begin → ¬ MatchAt H N j) :
    SearchSpec H N (naive_loop H N (H.length - N.length) begin) := by
  induction begin using naive_loop.induct H N (H.length - N.length) with
  | case1 b hb htest =>
    rw [naive_loop, if_pos hb, if_pos htest]
    exact ⟨(naive_test_iff H N b hN (by omega)).mp htest, hpre⟩
  | case2 b hb htest ih =>
    rw [naive_loop, if_pos hb, if_neg htest]
    apply ih
    intro j hj
    rcases Nat.lt_succ_iff_lt_or_eq.mp hj with h | h
    · exact hpre j h
    · subst h
      exact fun hm => htest ((naive_test_iff H N j hN (by omega)).mpr hm)
  | case3 b hb =>
    rw [naive_loop, if_neg hb]
    intro j hm
    have : j + N.length ≤ H.length := hm.1
    exact hpre j (by omega) hm

theorem naive_spec (H N : List Byte) : SearchSpec H N (lsmash_memmem_naive H N) := by
  unfold lsmash_memmem_naive
  by_cases h0 : N.length = 0
  · simp only [h0, if_true]
    refine ⟨?_, fun j hj => absurd hj (Nat.not_lt_zero j)⟩
    rw [matchAt_iff]
    exact ⟨by omega, fun k hk => by omega⟩
  · by_cases hlt : H.length < N.length
    · simp only [h0, if_false, hlt, if_true]
      intro j hm
      have : j + N.length ≤ H.length := hm.1
      omega
    · simp only [h0, if_false, hlt]
      exact naive_loop_spec H N h0 (by omega) 0 (fun j hj => absurd hj (Nat.not_lt_zero j))

/-! ## The string-compare primitive -/

theorem memcpy_byte (t : M128) (src : List Byte) (p n i : Nat) (hi : i < n) (h16 : i < 16) :
    (memcpy t src p n).byte i = rd src (p + i) := by
  simp [M128.byte, memcpy, h16, hi]

theorem loadu_byte (H : List Byte) (o i : Nat) (h16 : i < 16) :
    (loadu H o).byte i = rd H (o + i) := by
  simp [M128.byte, loadu, h16]

theorem lsbFrom_le (bits : Nat → Bool) (k j : Nat) (hjk : j + k ≤ 16) :
    lsbFrom bits k j ≤ 16 := by
  induction k generalizing j with
  | zero => simp [lsbFrom]
  | succ k ih =>
    unfold lsbFrom
    split
    · omega
    · exact ih (j + 1) (by omega)

theorem lsbFrom_set (bits : Nat → Bool) (k j : Nat) (hjk : j + k ≤ 16)
    (h : lsbFrom bits k j < 16) : bits (lsbFrom bits k j) = true := by
  induction k generalizing j with
  | zero => simp [lsbFrom] at h
  | succ k ih =>
    unfold lsbFrom at h ⊢
    by_cases hb : bits j = true
    · rw [if_pos hb]; exact hb
    · rw [if_neg hb] at h ⊢
      exact ih (j + 1) (by omega) h

theorem lsbFrom_least (bits : Nat → Bool) (k j : Nat) (m : Nat) (hjm : j ≤ m)
    (hmk : m < j + k) (hm : m < lsbFrom bits k j) : bits m = false := by
  induction k generalizing j with
  | zero => omega
  | succ k ih =>
    unfold lsbFrom at hm
    by_cases hb : bits j = true
    · rw [if_pos hb] at hm; omega
    · rw [if_neg hb] at hm
      rcases Nat.eq_or_lt_of_le hjm with h | h
      · subst h; simpa using hb
      · exact ih (j + 1) (by omega) (by omega) hm

theorem cmpestri_le (a : M128) (la : Nat) (b : M128) (lb : Nat) : cmpestri a la b lb ≤ 16 :=
  lsbFrom_le _ 16 0 (by omega)

theorem cmpestri_set (a : M128) (la : Nat) (b : M128) (lb : Nat)
    (h : cmpestri a la b lb < 16) : intRes1 a la b lb (cmpestri a la b lb) = true :=
  lsbFrom_set _ 16 0 (by omega) h

theorem cmpestri_least (a : M128) (la : Nat) (b : M128) (lb : Nat) (m : Nat)
    (hm : m < cmpestri a la b lb) : intRes1 a la b lb m = false :=
  lsbFrom_least _ 16 0 m (by omega) (by have := cmpestri_le a la b lb; omega) hm

theorem intRes1_iff (a : M128) (la : Nat) (b : M128) (lb : Nat) (j : Nat) :
    intRes1 a la b lb j = true ↔ ∀ i, i < 16 - j → boolRes a la b lb (j + i) i = true := by
  simp [intRes1, List.all_eq_true]

/-- On a window that holds `lb` bytes of the haystack from `o`, a start `j` whose candidate
fits the window has its bit set exactly when the needle occurs at `o + j`. -/
theorem intRes1_window (H N : List Byte) (a b : M128) (lb o j : Nat)
    (ha : ∀ i, i < N.length → a.byte i = rd N i)
    (hb : ∀ m, m < lb → b.byte m = rd H (o + m))
    (hlb : lb ≤ 16) (hwin : o + lb ≤ H.length) (hj : j + N.length ≤ lb) :
    intRes1 a N.length b lb j = true ↔ MatchAt H N (o + j) := by
  rw [intRes1_iff, matchAt_iff]
  constructor
  · intro h
    refine ⟨by omega, fun k hk => ?_⟩
    have hk' := h k (by omega)
    unfold boolRes at hk'
    rw [if_neg (by omega), if_neg (by omega)] at hk'
    have := of_decide_eq_true hk'
    rw [ha k hk, hb (j + k) (by omega)] at this
    rw [show o + j + k = o + (j + k) by omega]
    exact this.symm
  · rintro ⟨_, hall⟩ i hi
    unfold boolRes
    by_cases hni : N.length ≤ i
    · rw [if_pos hni]
    · rw [if_neg hni, if_neg (by omega)]
      apply decide_eq_true
      rw [ha i (by omega), hb (j + i) (by omega), ← hall i (by omega)]
      congr 1
      omega

/-- Outcome of one window: when the reported index is accepted it is the first occurrence
inside the window; when it is rejected no candidate that fits the window matches. -/
theorem cmpestri_window (H N : List Byte) (a b : M128) (lb o : Nat)
    (ha : ∀ i, i < N.length → a.byte i = rd N i)
    (hb : ∀ m, m < lb → b.byte m = rd H (o + m))
    (hlb : lb ≤ 16) (hwin : o + lb ≤ H.length) :
    (cmpestri a N.length b lb + N.length ≤ lb →
      MatchAt H N (o + cmpestri a N.length b lb) ∧
      ∀ j, j < cmpestri a N.length b lb → ¬ MatchAt H N (o + j)) ∧
    (¬ cmpestri a N.length b lb + N.length ≤ lb →
      ∀ j, j + N.length ≤ lb → ¬ MatchAt H N (o + j)) := by
  have hleast : ∀ j, j < cmpestri a N.length b lb → j + N.length ≤ lb →
      ¬ MatchAt H N (o + j) := by
    intro j hj hfit hm
    have h1 := (intRes1_window H N a b lb o j ha hb hlb hwin hfit).mpr hm
    rw [cmpestri_least a N.length b lb j hj] at h1
    exact Bool.false_ne_true h1
  constructor
  · intro hacc
    have hr16 : cmpestri a N.length b lb < 16 := by
      rcases Nat.lt_or_ge (cmpestri a N.length b lb) 16 with h | h
      · exact h
      · -- index 16 with an accepted test forces an empty needle, whose bit 0 is set
        exfalso
        have h0 : N.length = 0 := by omega
        have hm : MatchAt H N (o + 0) := by
          rw [matchAt_iff]
          exact ⟨by omega, fun k hk => by omega⟩
        exact hleast 0 (by omega) (by omega) hm
    refine ⟨(intRes1_window H N a b lb o _ ha hb hlb hwin hacc).mp
      (cmpestri_set a N.length b lb hr16), fun j hj => hleast j hj (by omega)⟩
  · intro hrej j hfit
    exact hleast j (by omega) hfit

/-! ## The vector scanner meets the specification -/

theorem sse42_loop_spec (H N : List Byte) (needle : M128) (hn : N.length ≤ 16)
    (hneedle : ∀ i, i < N.length → needle.byte i = rd N i)
    (offset : Nat) (hoff : offset ≤ H.length) (hpre : ∀ j, j < offset → ¬ MatchAt H N j) :
    LoopPost H N (sse42_loop H needle N.length offset) := by
  induction offset using sse42_loop.induct H needle N.length with
  | case1 o hguard data r hacc =>
    rw [sse42_loop, if_pos hguard]
    simp only []
    rw [if_pos hacc]
    have hw := (cmpestri_window H N needle (loadu H o) 16 o hneedle
      (fun m hm => loadu_byte H o m hm) (le_refl 16) hguard).1 hacc
    refine ⟨hw.1, fun j hj => ?_⟩
    rcases Nat.lt_or_ge j o with h | h
    · exact hpre j h
    · have := hw.2 (j - o) (by omega)
      rwa [show o + (j - o) = j by omega] at this
  | case2 o hguard data r hrej ih =>
    rw [sse42_loop, if_pos hguard]
    simp only []
    rw [if_neg hrej]
    have hr : r ≤ 16 := cmpestri_le _ _ _ _
    have hw := (cmpestri_window H N needle (loadu H o) 16 o hneedle
      (fun m hm => loadu_byte H o m hm) (le_refl 16) hguard).2 hrej
    apply ih (by omega)
    intro j hj
    rcases Nat.lt_or_ge j o with h | h
    · exact hpre j h
    · have := hw (j - o) (by omega)
      rwa [show o + (j - o) = j by omega] at this
  | case3 o hguard =>
    rw [sse42_loop, if_neg hguard]
    exact ⟨hoff, by omega, hpre⟩

theorem sse42_spec (tmp_buf : M128) (H N : List Byte) :
    SearchSpec H N (lsmash_memmem_sse42 tmp_buf H N) := by
  unfold lsmash_memmem_sse42
  by_cases h16 : N.length > 16
  · rw [if_pos h16]; exact naive_spec H N
  · rw [if_neg h16]
    by_cases hlt : H.length < N.length
    · rw [if_pos hlt]
      intro j hm
      have : j + N.length ≤ H.length := hm.1
      omega
    · rw [if_neg hlt]
      simp only []
      have hneedle : ∀ i, i < N.length →
          (memcpy tmp_buf N 0 N.length).byte i = rd N i := by
        intro i hi
        rw [memcpy_byte tmp_buf N 0 N.length i hi (by omega), Nat.zero_add]
      have hloop := sse42_loop_spec H N (memcpy tmp_buf N 0 N.length) (by omega) hneedle 0
        (Nat.zero_le _) (fun j hj => absurd hj (Nat.not_lt_zero j))
      cases hres : sse42_loop H (memcpy tmp_buf N 0 N.length) N.length 0 with
      | ret p =>
        rw [hres] at hloop
        exact hloop
      | fallthrough o =>
        rw [hres] at hloop
        obtain ⟨hoH, hrem, hpre⟩ := hloop
        simp only []
        have hw := cmpestri_window H N (memcpy tmp_buf N 0 N.length)
          (memcpy (memcpy tmp_buf N 0 N.length) H o (H.length - o)) (H.length - o) o hneedle
          (fun m hm => memcpy_byte _ H o (H.length - o) m hm (by omega)) (by omega) (by omega)
        split
        · rename_i hacc
          obtain ⟨hm, hfirst⟩ := hw.1 hacc
          refine ⟨hm, fun j hj => ?_⟩
          rcases Nat.lt_or_ge j o with h | h
          · exact hpre j h
          · have := hfirst (j - o) (by omega)
            rwa [show o + (j - o) = j by omega] at this
        · rename_i hrej
          intro j hm
          rcases Nat.lt_or_ge j o with h | h
          · exact hpre j h hm
          · have hfit : j + N.length ≤ H.length := hm.1
            have := hw.2 hrej (j - o) (by omega)
            rw [show o + (j - o) = j by omega] at this
            exact this hm

/-! ## Consequences used by the claims -/

theorem naive_eq_some_iff (H N : List Byte) (i : Nat) :
    lsmash_memmem_naive H N = some i ↔ FirstMatch H N i := by
  constructor
  · intro h
    have := naive_spec H N
    rwa [h] at this
  · intro h
    exact searchSpec_unique (naive_spec H N) h

theorem naive_eq_none_iff (H N : List Byte) :
    lsmash_memmem_naive H N = none ↔ ∀ i, ¬ MatchAt H N i := by
  constructor
  · intro h
    have := naive_spec H N
    rwa [h] at this
  · intro h
    exact searchSpec_unique (naive_spec H N) h

theorem sse42_agrees (tmp_buf : M128) (H N : List Byte) :
    lsmash_memmem_sse42 tmp_buf H N = lsmash_memmem_naive H N :=
  searchSpec_unique (sse42_spec tmp_buf H N) (naive_spec H N)

theorem sse42_eq_some_iff (tmp_buf : M128) (H N : List Byte) (i : Nat) :
    lsmash_memmem_sse42 tmp_buf H N = some i ↔ FirstMatch H N i := by
  rw [sse42_agrees]; exact naive_eq_some_iff H N i

/-- A search that meets the specification finds something as soon as the needle occurs. -/
theorem searchSpec_found {H N : List Byte} {r : Option Nat} (hr : SearchSpec H N r)
    {p : Nat} (hp : MatchAt H N p) :
    ∃ i, r = some i ∧ MatchAt H N i ∧ ∀ j, MatchAt H N j → i ≤ j := by
  cases r with
  | none => exact absurd hp (hr p)
  | some i =>
    refine ⟨i, rfl, hr.1, fun j hj => ?_⟩
    rcases Nat.lt_or_ge j i with h | h
    · exact absurd hj (hr.2 j h)
    · exact h

theorem matchAt_nil (H : List Byte) : MatchAt H [] 0 := by
  rw [matchAt_iff]
  exact ⟨by simp, fun k hk => absurd hk (Nat.not_lt_zero k)⟩

theorem searchSpec_nil {H : List Byte} {r : Option Nat} (hr : SearchSpec H [] r) :
    r = some 0 :=
  searchSpec_unique hr ⟨matchAt_nil H, fun j hj => absurd hj (Nat.not_lt_zero j)⟩

theorem searchSpec_too_long {H N : List Byte} {r : Option Nat} (hr : SearchSpec H N r)
    (hlen : H.length < N.length) : r = none := by
  apply searchSpec_unique hr
  intro j hm
  have : j + N.length ≤ H.length := hm.1
  omega

theorem matchAt_same_length {H N : List Byte} (hlen : H.length = N.length) (j : Nat) :
    MatchAt H N j ↔ j = 0 ∧ N = H := by
  unfold MatchAt
  constructor
  · rintro ⟨hle, heq⟩
    have hj : j = 0 := by omega
    subst hj
    refine ⟨rfl, ?_⟩
    rw [← heq, List.drop_zero, ← hlen, List.take_length]
  · rintro ⟨rfl, rfl⟩
    exact ⟨by omega, by simp⟩

theorem searchSpec_same_length {H N : List Byte} {r : Option Nat} (hr : SearchSpec H N r)
    (hlen : H.length = N.length) : (N = H → r = some 0) ∧ (N ≠ H → r = none) := by
  constructor
  · intro heq
    apply searchSpec_unique hr
    exact ⟨(matchAt_same_length hlen 0).mpr ⟨rfl, heq⟩,
      fun j hj => absurd hj (Nat.not_lt_zero j)⟩
  · intro hne
    apply searchSpec_unique hr
    intro j hm
    exact hne ((matchAt_same_length hlen j).mp hm).2

theorem and_bit20_ne_zero_iff (x : Nat) : x &&& (1 <<< 20) ≠ 0 ↔ x.testBit 20 = true := by
  rw [Nat.shiftLeft_eq, Nat.one_mul]
  constructor
  · intro h
    by_contra hb
    apply h
    apply Nat.eq_of_testBit_eq
    intro i
    rw [Nat.testBit_and, Nat.testBit_two_pow, Nat.zero_testBit]
    by_cases hi : 20 = i
    · subst hi; simp [hb]
    · simp [hi]
  · intro hb h0
    have : (x &&& 2 ^ 20).testBit 20 = true := by
      rw [Nat.testBit_and, hb, Nat.testBit_two_pow_self]; rfl
    rw [h0, Nat.zero_testBit] at this
    exact Bool.false_ne_true this

theorem init_sse_resolved (hw : Cpuid) (s : Proc) :
    (lsmash_init_sse hw s).lsmash_memmem ≠ FnPtr.null := by
  unfold lsmash_init_sse
  by_cases h : s.lsmash_memmem = FnPtr.null
  · rw [if_pos h]
    simp only []
    split <;> simp
  · rw [if_neg h]; exact h

theorem init_sse_of_resolved (hw : Cpuid) (s : Proc) (h : s.lsmash_memmem ≠ FnPtr.null) :
    lsmash_init_sse hw s = s := by
  unfold lsmash_init_sse
  rw [if_neg h]

theorem init_calls_of_resolved (hws : List Cpuid) (s : Proc)
    (h : s.lsmash_memmem ≠ FnPtr.null) : init_calls hws s = s := by
  induction hws with
  | nil => rfl
  | cons hw rest ih =>
    unfold init_calls at ih ⊢
    rw [List.foldl_cons, init_sse_of_resolved hw s h]
    exact ih

/-! ## The claims -/

/-- C1: the scalar scanner returns the first occurrence. It returns offset `i` exactly when
`i` is the least index with `i + len N ≤ len H` and `H[i .. i + len N) = N`, it returns
not-found exactly when no such index exists, and `"abcXYZdef"` searched for `"XYZ"`
gives offset 3. -/
theorem naive_returns_first_occurrence :
    (∀ (H N : List Byte) (i : Nat), lsmash_memmem_naive H N = some i ↔
      ((i + N.length ≤ H.length ∧ (H.drop i).take N.length = N) ∧
        ∀ j, j < i → ¬ (j + N.length ≤ H.length ∧ (H.drop j).take N.length = N))) ∧
    (∀ (H N : List Byte), lsmash_memmem_naive H N = none ↔
      ∀ i, ¬ (i + N.length ≤ H.length ∧ (H.drop i).take N.length = N)) ∧
    lsmash_memmem_naive [97, 98, 99, 88, 89, 90, 100, 101, 102] [88, 89, 90] = some 3 :=
  ⟨naive_eq_some_iff, naive_eq_none_iff,
    (naive_eq_some_iff _ _ 3).mpr ⟨by decide, by decide⟩⟩

/-- C5: for every haystack, the empty one included, the empty needle is found at offset 0
by the scalar scanner and by the vector scanner; in the vector scanner the comparison
with a declared needle length of 0 reports index 0 whatever the window. -/
theorem empty_needle_offset_zero (tmp_buf : M128) (H : List Byte) :
    lsmash_memmem_naive H [] = some 0 ∧ lsmash_memmem_sse42 tmp_buf H [] = some 0 ∧
    ∀ (a b : M128) (lb : Nat), cmpestri a 0 b lb = 0 := by
  refine ⟨searchSpec_nil (naive_spec H []), searchSpec_nil (sse42_spec tmp_buf H []), ?_⟩
  intro a b lb
  have h0 : intRes1 a 0 b lb 0 = true := by
    rw [intRes1_iff]
    intro i _
    simp [boolRes]
  unfold cmpestri lsbFrom
  rw [if_pos h0]

/-- C6: a needle longer than the haystack is not found, by either scanner. -/
theorem longer_needle_not_found (tmp_buf : M128) (H N : List Byte)
    (hlen : H.length < N.length) :
    lsmash_memmem_naive H N = none ∧ lsmash_memmem_sse42 tmp_buf H N = none :=
  ⟨searchSpec_too_long (naive_spec H N) hlen,
    searchSpec_too_long (sse42_spec tmp_buf H N) hlen⟩

/-- Witness for C6: `"ab"` searched for `"abc"`. -/
theorem longer_needle_not_found_witness :
    ([97, 98] : List Byte).length < ([97, 98, 99] : List Byte).length ∧
    (lsmash_memmem_naive [97, 98] [97, 98, 99] = none ∧
      lsmash_memmem_sse42 (fun _ => 0) [97, 98] [97, 98, 99] = none) :=
  ⟨by decide, longer_needle_not_found (fun _ => 0) [97, 98] [97, 98, 99] (by decide)⟩

/-- C7: when haystack and needle have the same length, both scanners return offset 0 if
the two are equal and not-found if they differ (in one byte or more). -/
theorem same_length_search (tmp_buf : M128) (H N : List Byte)
    (hlen : N.length = H.length) :
    (N = H → lsmash_memmem_naive H N = some 0 ∧ lsmash_memmem_sse42 tmp_buf H N = some 0) ∧
    (N ≠ H → lsmash_memmem_naive H N = none ∧ lsmash_memmem_sse42 tmp_buf H N = none) :=
  ⟨fun h => ⟨(searchSpec_same_length (naive_spec H N) hlen.symm).1 h,
      (searchSpec_same_length (sse42_spec tmp_buf H N) hlen.symm).1 h⟩,
    fun h => ⟨(searchSpec_same_length (naive_spec H N) hlen.symm).2 h,
      (searchSpec_same_length (sse42_spec tmp_buf H N) hlen.symm).2 h⟩⟩

/-- Witness for C7: `"abcd"` against `"abXd"`, which differs from it in one byte. -/
theorem same_length_search_witness :
    ([97, 98, 88, 100] : List Byte).length = ([97, 98, 99, 100] : List Byte).length ∧
    ((([97, 98, 88, 100] : List Byte) = [97, 98, 99, 100] →
        lsmash_memmem_naive [97, 98, 99, 100] [97, 98, 88, 100] = some 0 ∧
        lsmash_memmem_sse42 (fun _ => 0) [97, 98, 99, 100] [97, 98, 88, 100] = some 0) ∧
      (([97, 98, 88, 100] : List Byte) ≠ [97, 98, 99, 100] →
        lsmash_memmem_naive [97, 98, 99, 100] [97, 98, 88, 100] = none ∧
        lsmash_memmem_sse42 (fun _ => 0) [97, 98, 99, 100] [97, 98, 88, 100] = none)) :=
  ⟨by decide, same_length_search (fun _ => 0) [97, 98, 99, 100] [97, 98, 88, 100] (by decide)⟩

/-- C9: from the unresolved binding, `lsmash_init_sse` binds `lsmash_memmem` to the vector
scanner exactly when bit 20 of the ECX word of CPUID leaf 1 is set, to the scalar
scanner exactly when it is clear, and never leaves the binding unresolved. -/
theorem init_sse_binds_by_bit20 (hw : Cpuid) (calls : Nat) :
    ((lsmash_init_sse hw ⟨FnPtr.null, calls⟩).lsmash_memmem = FnPtr.memmem_sse42 ↔
      (hw 1 2).testBit 20 = true) ∧
    ((lsmash_init_sse hw ⟨FnPtr.null, calls⟩).lsmash_memmem = FnPtr.memmem_naive ↔
      (hw 1 2).testBit 20 = false) ∧
    (lsmash_init_sse hw ⟨FnPtr.null, calls⟩).lsmash_memmem ≠ FnPtr.null := by
  have hres := init_sse_resolved hw ⟨FnPtr.null, calls⟩
  refine ⟨?_, ?_, hres⟩
  · unfold lsmash_init_sse
    simp only [if_true]
    rw [← and_bit20_ne_zero_iff]
    split <;> simp_all
  · unfold lsmash_init_sse
    simp only [if_true]
    rw [← Bool.not_eq_true, ← and_bit20_ne_zero_iff]
    split <;> simp_all

/-- C10: the binding is write-once. Starting from the unresolved state, the first
`lsmash_init_sse` call executes the hardware query (the count goes from 0 to 1), and
after any number of further calls, whatever the query would report to them, the state is
the one the first call left: the same binding and a query count of 1. -/
theorem init_sse_write_once (hw : Cpuid) (hws : List Cpuid) :
    Proc.start.cpuid_calls = 0 ∧
    (lsmash_init_sse hw Proc.start).cpuid_calls = 1 ∧
    init_calls (hw :: hws) Proc.start = lsmash_init_sse hw Proc.start ∧
    (init_calls (hw :: hws) Proc.start).cpuid_calls = 1 ∧
    (init_calls (hw :: hws) Proc.start).lsmash_memmem =
      (lsmash_init_sse hw Proc.start).lsmash_memmem := by
  have hrest : init_calls (hw :: hws) Proc.start = lsmash_init_sse hw Proc.start := by
    show init_calls hws (lsmash_init_sse hw Proc.start) = lsmash_init_sse hw Proc.start
    exact init_calls_of_resolved hws _ (init_sse_resolved hw Proc.start)
  have hone : (lsmash_init_sse hw Proc.start).cpuid_calls = 1 := by
    simp [lsmash_init_sse, Proc.start]
  exact ⟨rfl, hone, hrest, by rw [hrest, hone], by rw [hrest]⟩

/-! ## The comparison and the bounds of the exact loop -/

/-- The comparison reads the needle register only below `la` and the data register only
below `lb`: the bytes past the declared lengths do not influence the index. -/
theorem cmpestri_congr (a a2 b b2 : M128) (la lb : Nat)
    (ha : ∀ i, i < la → a.byte i = a2.byte i) (hb : ∀ j, j < lb → b.byte j = b2.byte j) :
    cmpestri a la b lb = cmpestri a2 la b2 lb := by
  have hbool : ∀ j i, boolRes a la b lb j i = boolRes a2 la b2 lb j i := by
    intro j i
    unfold boolRes
    by_cases hi : la ≤ i
    · rw [if_pos hi, if_pos hi]
    · by_cases hj : lb ≤ j
      · rw [if_neg hi, if_neg hi, if_pos hj, if_pos hj]
      · rw [if_neg hi, if_neg hi, if_neg hj, if_neg hj, ha i (by omega), hb j (by omega)]
  have hint : intRes1 a la b lb = intRes1 a2 la b2 lb := by
    funext j
    unfold intRes1
    simp only [hbool]
  unfold cmpestri
  rw [hint]

theorem sse42_lanes_bounds (H : List Byte) (needle : M128) (n o : Nat) :
    ∀ x, x ∈ sse42_lanes H needle n o → o ≤ x ∧ x + 16 ≤ H.length := by
  induction o using sse42_lanes.induct H needle n with
  | case1 o hguard data r hacc =>
    intro x hx
    rw [sse42_lanes, if_pos hguard] at hx
    simp only [] at hx
    rw [if_pos hacc, List.mem_singleton] at hx
    subst hx
    exact ⟨le_refl _, hguard⟩
  | case2 o hguard data r hrej ih =>
    intro x hx
    rw [sse42_lanes, if_pos hguard] at hx
    simp only [] at hx
    rw [if_neg hrej, List.mem_cons] at hx
    rcases hx with hx | hx
    · subst hx
      exact ⟨le_refl _, hguard⟩
    · have := ih x hx
      exact ⟨by omega, this.2⟩
  | case3 o hguard =>
    intro x hx
    rw [sse42_lanes, if_neg hguard] at hx
    exact absurd hx (List.not_mem_nil x)

theorem sse42_loop_fallthrough_bounds (H : List Byte) (needle : M128) (n : Nat) (h1 : 1 ≤ n)
    (o : Nat) (ho : o ≤ H.length) (f : Nat)
    (hf : sse42_loop H needle n o = LoopEnd.fallthrough f) :
    o ≤ f ∧ f ≤ H.length ∧ H.length < f + 16 := by
  induction o using sse42_loop.induct H needle n with
  | case1 o hguard data r hacc =>
    rw [sse42_loop, if_pos hguard] at hf
    simp only [] at hf
    rw [if_pos hacc] at hf
    exact LoopEnd.noConfusion hf
  | case2 o hguard data r hrej ih =>
    rw [sse42_loop, if_pos hguard] at hf
    simp only [] at hf
    rw [if_neg hrej] at hf
    have := ih (by omega) hf
    omega
  | case3 o hguard =>
    rw [sse42_loop, if_neg hguard] at hf
    injection hf with hf
    subst hf
    omega

/-! ## The position of the lanes -/

/-- The `k`-th lane of a run started at `o` is loaded at `o + k * (16 - n + 1)`. -/
theorem sse42_lanes_getElem (H : List Byte) (needle : M128) (n o : Nat) :
    ∀ k x, (sse42_lanes H needle n o)[k]? = some x → x = o + k * (16 - n + 1) := by
  induction o using sse42_lanes.induct H needle n with
  | case1 o hguard data r hacc =>
    intro k x hx
    rw [sse42_lanes, if_pos hguard] at hx
    simp only [] at hx
    rw [if_pos hacc] at hx
    cases k with
    | zero => simp at hx; omega
    | succ k => simp at hx
  | case2 o hguard data r hrej ih =>
    intro k x hx
    rw [sse42_lanes, if_pos hguard] at hx
    simp only [] at hx
    rw [if_neg hrej] at hx
    cases k with
    | zero => simp at hx; omega
    | succ k =>
      rw [List.getElem?_cons_succ] at hx
      have := ih k x hx
      rw [this, Nat.add_mul]
      omega
  | case3 o hguard =>
    intro k x hx
    rw [sse42_lanes, if_neg hguard] at hx
    simp at hx

/-! ## The 32-bit counter -/

theorem toInt32_of_range (x : Int) (hlo : -(2 ^ 31) ≤ x) (hhi : x < 2 ^ 31) :
    toInt32 x = x := by
  unfold toInt32
  omega

theorem toSizeT_of_range (x : Int) (hlo : 0 ≤ x) (hhi : x < 2 ^ 64) : toSizeT x = x := by
  unfold toSizeT
  omega

theorem rdZ_natCast (buf : List Byte) (i : Nat) : rdZ buf (i : Int) = rd buf i := by
  unfold rdZ
  rw [if_pos (Int.ofNat_nonneg i), Int.toNat_ofNat]

theorem loaduZ_natCast (H : List Byte) (o : Nat) : loaduZ H (o : Int) = loadu H o := by
  funext i
  unfold loaduZ loadu
  rw [← Int.ofNat_add, rdZ_natCast]

theorem memcpyZ_natCast (t : M128) (H : List Byte) (o n : Nat) :
    memcpyZ t H (o : Int) (n : Int) = memcpy t H o n := by
  funext i
  unfold memcpyZ memcpy
  rw [← Int.ofNat_add, rdZ_natCast]
  simp only [Int.ofNat_lt]

/-- The stride loop with a 32-bit counter agrees with the exact loop while the haystack
has at most `2 ^ 31 - 17` bytes, and `H.length - o + 1` iterations are enough. -/
theorem sse42_loop_int32_eq (H : List Byte) (needle : M128) (n : Nat) (h1 : 1 ≤ n)
    (h16 : n ≤ 16) (hbound : H.length ≤ 2 ^ 31 - 17) :
    ∀ (fuel o : Nat), o ≤ H.length → H.length - o < fuel →
      sse42_loop_int32 H needle n fuel (o : Int) = some (sse42_loop H needle n o).toInt32 := by
  intro fuel
  induction fuel with
  | zero => intro o _ hf; omega
  | succ fuel ih =>
    intro o ho hf
    have hguardv : toSizeT (toInt32 ((o : Int) + 16)) = (o : Int) + 16 := by
      rw [toInt32_of_range _ (by omega) (by omega), toSizeT_of_range _ (by omega) (by omega)]
    have hla : (toInt32 (n : Int)).natAbs = n := by
      rw [toInt32_of_range _ (by omega) (by omega)]
      exact Int.natAbs_ofNat n
    have hr : cmpestri needle n (loadu H o) 16 ≤ 16 := cmpestri_le _ _ _ _
    have haccv : toSizeT ((cmpestri needle n (loadu H o) 16 : Int) + (n : Int)) =
        ((cmpestri needle n (loadu H o) 16 + n : Nat) : Int) := by
      rw [toSizeT_of_range _ (by omega) (by omega)]
      push_cast
      rfl
    have hstep : toInt32 (toSizeT (toSizeT (o : Int) +
        toSizeT (toSizeT (16 - (n : Int)) + 1))) = ((o + (16 - n + 1) : Nat) : Int) := by
      rw [toSizeT_of_range (16 - (n : Int)) (by omega) (by omega),
        toSizeT_of_range (16 - (n : Int) + 1) (by omega) (by omega),
        toSizeT_of_range (o : Int) (by omega) (by omega),
        toSizeT_of_range _ (by omega) (by omega),
        toInt32_of_range _ (by omega) (by omega)]
      omega
    unfold sse42_loop_int32
    rw [sse42_loop, hguardv, hla, loaduZ_natCast]
    simp only []
    rw [haccv, hstep]
    by_cases hguard : o + 16 ≤ H.length
    · rw [if_pos hguard, if_pos (by omega)]
      by_cases hacc : cmpestri needle n (loadu H o) 16 + n ≤ 16
      · rw [if_pos hacc, if_pos (by omega)]
        simp only [LoopEnd.toInt32]
        push_cast
        rfl
      · rw [if_neg hacc, if_neg (by omega)]
        clear hguardv hla haccv hstep hr hbound
        have hs1 : o + (16 - n + 1) ≤ H.length := by omega
        have hs2 : H.length - (o + (16 - n + 1)) < fuel := by omega
        exact ih (o + (16 - n + 1)) hs1 hs2
    · rw [if_neg hguard, if_neg (by omega)]
      rfl

theorem sse42_loop_int32_start (H : List Byte) (needle : M128) (n : Nat) (h1 : 1 ≤ n)
    (h16 : n ≤ 16) (hbound : H.length ≤ 2 ^ 31 - 17) (fuel : Nat) (hfuel : H.length < fuel) :
    sse42_loop_int32 H needle n fuel 0 = some (sse42_loop H needle n 0).toInt32 := by
  have h := sse42_loop_int32_eq H needle n h1 h16 hbound fuel 0 (Nat.zero_le _) hfuel
  rw [Nat.cast_zero] at h
  exact h

theorem sse42_counters_bounds (H : List Byte) (needle : M128) (n : Nat) (h1 : 1 ≤ n) :
    ∀ o, o ∈ sse42_counters H needle n 0 → o ≤ H.length := by
  intro o ho
  unfold sse42_counters at ho
  rw [List.mem_append] at ho
  rcases ho with ho | ho
  · have := (sse42_lanes_bounds H needle n 0 o ho).2
    omega
  · cases hres : sse42_loop H needle n 0 with
    | ret p =>
      rw [hres] at ho
      exact absurd ho (List.not_mem_nil o)
    | fallthrough f =>
      rw [hres] at ho
      simp only [List.mem_singleton] at ho
      subst ho
      exact (sse42_loop_fallthrough_bounds H needle n h1 0 (Nat.zero_le _) o hres).2.1

theorem sse42_int32_eq (fuel : Nat) (tmp_buf : M128) (H N : List Byte)
    (h1 : 1 ≤ N.length) (h16 : N.length ≤ 16) (hbound : H.length ≤ 2 ^ 31 - 17)
    (hfuel : H.length < fuel) :
    lsmash_memmem_sse42_int32 fuel tmp_buf H N =
      some ((lsmash_memmem_sse42 tmp_buf H N).map Int.ofNat) := by
  unfold lsmash_memmem_sse42_int32 lsmash_memmem_sse42
  have hn : ¬ N.length > 16 := by omega
  rw [if_neg hn, if_neg hn]
  by_cases hlt : H.length < N.length
  · rw [if_pos hlt, if_pos hlt]
    rfl
  · rw [if_neg hlt, if_neg hlt]
    simp only []
    rw [sse42_loop_int32_start H _ N.length h1 h16 hbound fuel hfuel]
    cases hres : sse42_loop H (memcpy tmp_buf N 0 N.length) N.length 0 with
    | ret p => rfl
    | fallthrough f =>
      have hb := sse42_loop_fallthrough_bounds H _ N.length h1 0 (Nat.zero_le _) f hres
      simp only [LoopEnd.toInt32]
      have hremain : toSizeT ((H.length : Int) - toSizeT (f : Int)) =
          ((H.length - f : Nat) : Int) := by
        rw [toSizeT_of_range (f : Int) (by omega) (by omega),
          toSizeT_of_range _ (by omega) (by omega)]
        omega
      have hla : (toInt32 (N.length : Int)).natAbs = N.length := by
        rw [toInt32_of_range _ (by omega) (by omega)]
        exact Int.natAbs_ofNat _
      have hlb : (toInt32 ((H.length - f : Nat) : Int)).natAbs = H.length - f := by
        rw [toInt32_of_range _ (by omega) (by omega)]
        exact Int.natAbs_ofNat _
      rw [hremain, hla, hlb, memcpyZ_natCast]
      have hr : cmpestri (memcpy tmp_buf N 0 N.length) N.length
          (memcpy (memcpy tmp_buf N 0 N.length) H f (H.length - f)) (H.length - f) ≤ 16 :=
        cmpestri_le _ _ _ _
      rw [toSizeT_of_range _ (by omega) (by omega)]
      split
      · rename_i hacc
        rw [if_pos (by omega)]
        simp only [Option.map]
        rfl
      · rename_i hrej
        rw [if_neg (by omega)]
        rfl

/-! ## The claim on the 32-bit counter -/

/-- C15: with a needle of 1 to 16 bytes and a haystack of at most `2 ^ 31 - 17` bytes, every
value `o` the `int` counter `offset` takes satisfies `0 ≤ o` and `o + 16 ≤ 2 ^ 31 - 1`, so
`offset + 16` does not wrap; the stride loop computed with 32-bit wrap-around ends exactly
as the loop computed with exact integers, and the scanner with the 32-bit counter returns
the result of the exact scanner (any iteration bound above the haystack length is
enough). -/
theorem sse42_counter_width (fuel : Nat) (tmp_buf : M128) (H N : List Byte)
    (h1 : 1 ≤ N.length) (h16 : N.length ≤ 16) (hbound : H.length ≤ 2 ^ 31 - 17)
    (hfuel : H.length < fuel) :
    (∀ o, o ∈ sse42_counters H (memcpy tmp_buf N 0 N.length) N.length 0 →
      (0 : Int) ≤ (o : Int) ∧ (o : Int) + 16 ≤ 2 ^ 31 - 1 ∧
      toInt32 ((o : Int) + 16) = (o : Int) + 16) ∧
    sse42_loop_int32 H (memcpy tmp_buf N 0 N.length) N.length fuel 0 =
      some (sse42_loop H (memcpy tmp_buf N 0 N.length) N.length 0).toInt32 ∧
    lsmash_memmem_sse42_int32 fuel tmp_buf H N =
      some ((lsmash_memmem_sse42 tmp_buf H N).map Int.ofNat) := by
  refine ⟨?_, ?_, sse42_int32_eq fuel tmp_buf H N h1 h16 hbound hfuel⟩
  · intro o ho
    have := sse42_counters_bounds H _ N.length h1 o ho
    refine ⟨by omega, by omega, toInt32_of_range _ (by omega) (by omega)⟩
  · exact sse42_loop_int32_start H _ N.length h1 h16 hbound fuel hfuel

/-- Witness for C15: 20 bytes `'Q'` followed by `"NEEDLE"`, with an iteration bound of 27. -/
theorem sse42_counter_width_witness :
    (1 ≤ ([78, 69, 69, 68, 76, 69] : List Byte).length ∧
      ([78, 69, 69, 68, 76, 69] : List Byte).length ≤ 16 ∧
      (List.replicate 20 81 ++ [78, 69, 69, 68, 76, 69] : List Byte).length ≤ 2 ^ 31 - 17 ∧
      (List.replicate 20 81 ++ [78, 69, 69, 68, 76, 69] : List Byte).length < 27) ∧
    ((∀ o, o ∈ sse42_counters (List.replicate 20 81 ++ [78, 69, 69, 68, 76, 69])
          (memcpy (fun _ => 0) [78, 69, 69, 68, 76, 69] 0
            ([78, 69, 69, 68, 76, 69] : List Byte).length)
          ([78, 69, 69, 68, 76, 69] : List Byte).length 0 →
        (0 : Int) ≤ (o : Int) ∧ (o : Int) + 16 ≤ 2 ^ 31 - 1 ∧
        toInt32 ((o : Int) + 16) = (o : Int) + 16) ∧
      sse42_loop_int32 (List.replicate 20 81 ++ [78, 69, 69, 68, 76, 69])
          (memcpy (fun _ => 0) [78, 69, 69, 68, 76, 69] 0
            ([78, 69, 69, 68, 76, 69] : List Byte).length)
          ([78, 69, 69, 68, 76, 69] : List Byte).length 27 0 =
        some (sse42_loop (List.replicate 20 81 ++ [78, 69, 69, 68, 76, 69])
          (memcpy (fun _ => 0) [78, 69, 69, 68, 76, 69] 0
            ([78, 69, 69, 68, 76, 69] : List Byte).length)
          ([78, 69, 69, 68, 76, 69] : List Byte).length 0).toInt32 ∧
      lsmash_memmem_sse42_int32 27 (fun _ => 0)
          (List.replicate 20 81 ++ [78, 69, 69, 68, 76, 69]) [78, 69, 69, 68, 76, 69] =
        some ((lsmash_memmem_sse42 (fun _ => 0)
          (List.replicate 20 81 ++ [78, 69, 69, 68, 76, 69])
          [78, 69, 69, 68, 76, 69]).map Int.ofNat)) :=
  ⟨⟨by decide, by decide, by decide, by decide⟩,
    sse42_counter_width 27 (fun _ => 0) (List.replicate 20 81 ++ [78, 69, 69, 68, 76, 69])
      [78, 69, 69, 68, 76, 69] (by decide) (by decide) (by decide) (by decide)⟩

/-! ## Timestamp comparison -/

/-- The sign computed from the wrapped difference is the order of the operands when both
are below `2 ^ 63`. -/
theorem toInt64_subU64 (x y : Nat) (hx : x < 2 ^ 63) (hy : y < 2 ^ 63) :
    (0 < toInt64 (subU64 x y) ↔ y < x) ∧ (toInt64 (subU64 x y) = 0 ↔ x = y) := by
  unfold toInt64 subU64
  constructor
  · constructor
    · intro h
      split at h <;> omega
    · intro h
      split <;> omega
  · constructor
    · intro h
      split at h <;> omega
    · intro h
      split <;> omega

theorem compare_sign_cases (d : Int) :
    ((if d > 0 then (1 : Int) else (if d = 0 then 0 else -1)) = 1 ↔ 0 < d) ∧
    ((if d > 0 then (1 : Int) else (if d = 0 then 0 else -1)) = 0 ↔ d = 0) ∧
    ((if d > 0 then (1 : Int) else (if d = 0 then 0 else -1)) = -1 ↔ ¬ 0 < d ∧ d ≠ 0) ∧
    ((if d > 0 then (1 : Int) else (if d = 0 then 0 else -1)) < 0 ↔ ¬ 0 < d ∧ d ≠ 0) := by
  by_cases h1 : d > 0
  · rw [if_pos h1]
    exact ⟨⟨fun _ => h1, fun _ => rfl⟩, ⟨fun h => by omega, fun h => by omega⟩,
      ⟨fun h => by omega, fun h => by omega⟩, ⟨fun h => by omega, fun h => by omega⟩⟩
  · by_cases h2 : d = 0
    · rw [if_neg h1, if_pos h2]
      exact ⟨⟨fun h => by omega, fun h => by omega⟩, ⟨fun _ => h2, fun _ => rfl⟩,
        ⟨fun h => by omega, fun h => by omega⟩, ⟨fun h => by omega, fun h => by omega⟩⟩
    · rw [if_neg h1, if_neg h2]
      exact ⟨⟨fun h => by omega, fun h => by omega⟩, ⟨fun h => by omega, fun h => by omega⟩,
        ⟨fun _ => ⟨by omega, h2⟩, fun _ => rfl⟩, ⟨fun _ => ⟨by omega, h2⟩, fun _ => by omega⟩⟩

theorem compare_dts_iff (a b : lsmash_media_ts_t) (ha : a.dts < 2 ^ 63) (hb : b.dts < 2 ^ 63) :
    (lsmash_compare_dts a b = 1 ↔ a.dts > b.dts) ∧
    (lsmash_compare_dts a b = 0 ↔ a.dts = b.dts) ∧
    (lsmash_compare_dts a b = -1 ↔ a.dts < b.dts) ∧
    (lsmash_compare_dts a b < 0 ↔ a.dts < b.dts) := by
  have hs := toInt64_subU64 a.dts b.dts ha hb
  have hc := compare_sign_cases (toInt64 (subU64 a.dts b.dts))
  unfold lsmash_compare_dts
  simp only []
  refine ⟨hc.1.trans hs.1, hc.2.1.trans hs.2, hc.2.2.1.trans ?_, hc.2.2.2.trans ?_⟩
  · rw [hs.1, Ne, hs.2]; omega
  · rw [hs.1, Ne, hs.2]; omega

theorem compare_cts_iff (a b : lsmash_media_ts_t) (ha : a.cts < 2 ^ 63) (hb : b.cts < 2 ^ 63) :
    (lsmash_compare_cts a b = 1 ↔ a.cts > b.cts) ∧
    (lsmash_compare_cts a b = 0 ↔ a.cts = b.cts) ∧
    (lsmash_compare_cts a b = -1 ↔ a.cts < b.cts) := by
  have hs := toInt64_subU64 a.cts b.cts ha hb
  have hc := compare_sign_cases (toInt64 (subU64 a.cts b.cts))
  unfold lsmash_compare_cts
  simp only []
  refine ⟨hc.1.trans hs.1, hc.2.1.trans hs.2, hc.2.2.1.trans ?_⟩
  rw [hs.1, Ne, hs.2]; omega

/-! ## The claims on timestamp comparison -/

/-- C16: for records whose `dts` values are below `2 ^ 63`, `lsmash_compare_dts(a, b)` is 1,
0 or -1 exactly when `a.dts` is greater than, equal to or less than `b.dts`; and for
records whose `cts` values are below `2 ^ 63`, `lsmash_compare_cts(c, d)` is 1, 0 or -1
exactly when `c.cts` is greater than, equal to or less than `d.cts`. Both functions are
pure: they return a value and write nothing. -/
theorem compare_ts_sign (a b c d : lsmash_media_ts_t)
    (ha : a.dts < 2 ^ 63) (hb : b.dts < 2 ^ 63) (hc : c.cts < 2 ^ 63) (hd : d.cts < 2 ^ 63) :
    ((lsmash_compare_dts a b = 1 ↔ a.dts > b.dts) ∧
      (lsmash_compare_dts a b = 0 ↔ a.dts = b.dts) ∧
      (lsmash_compare_dts a b = -1 ↔ a.dts < b.dts)) ∧
    ((lsmash_compare_cts c d = 1 ↔ c.cts > d.cts) ∧
      (lsmash_compare_cts c d = 0 ↔ c.cts = d.cts) ∧
      (lsmash_compare_cts c d = -1 ↔ c.cts < d.cts)) :=
  ⟨⟨(compare_dts_iff a b ha hb).1, (compare_dts_iff a b ha hb).2.1,
      (compare_dts_iff a b ha hb).2.2.1⟩, compare_cts_iff c d hc hd⟩

/-- Witness for C16: `dts` 90000 against 93003, and `cts` 93003 against 90000. -/
theorem compare_ts_sign_witness :
    ((⟨90000, 93003⟩ : lsmash_media_ts_t).dts < 2 ^ 63 ∧
      (⟨93003, 90000⟩ : lsmash_media_ts_t).dts < 2 ^ 63 ∧
      (⟨90000, 93003⟩ : lsmash_media_ts_t).cts < 2 ^ 63 ∧
      (⟨93003, 90000⟩ : lsmash_media_ts_t).cts < 2 ^ 63) ∧
    (((lsmash_compare_dts ⟨90000, 93003⟩ ⟨93003, 90000⟩ = 1 ↔
          (⟨90000, 93003⟩ : lsmash_media_ts_t).dts > (⟨93003, 90000⟩ : lsmash_media_ts_t).dts) ∧
        (lsmash_compare_dts ⟨90000, 93003⟩ ⟨93003, 90000⟩ = 0 ↔
          (⟨90000, 93003⟩ : lsmash_media_ts_t).dts = (⟨93003, 90000⟩ : lsmash_media_ts_t).dts) ∧
        (lsmash_compare_dts ⟨90000, 93003⟩ ⟨93003, 90000⟩ = -1 ↔
          (⟨90000, 93003⟩ : lsmash_media_ts_t).dts < (⟨93003, 90000⟩ : lsmash_media_ts_t).dts)) ∧
      ((lsmash_compare_cts ⟨90000, 93003⟩ ⟨93003, 90000⟩ = 1 ↔
          (⟨90000, 93003⟩ : lsmash_media_ts_t).cts > (⟨93003, 90000⟩ : lsmash_media_ts_t).cts) ∧
        (lsmash_compare_cts ⟨90000, 93003⟩ ⟨93003, 90000⟩ = 0 ↔
          (⟨90000, 93003⟩ : lsmash_media_ts_t).cts = (⟨93003, 90000⟩ : lsmash_media_ts_t).cts) ∧
        (lsmash_compare_cts ⟨90000, 93003⟩ ⟨93003, 90000⟩ = -1 ↔
          (⟨90000, 93003⟩ : lsmash_media_ts_t).cts < (⟨93003, 90000⟩ : lsmash_media_ts_t).cts))) :=
  ⟨⟨by decide, by decide, by decide, by decide⟩,
    compare_ts_sign ⟨90000, 93003⟩ ⟨93003, 90000⟩ ⟨90000, 93003⟩ ⟨93003, 90000⟩
      (by decide) (by decide) (by decide) (by decide)⟩

/-- C17, as the claim states it, fails over all 64-bit values: with `dts` values `0`,
`2 ^ 62` and `2 ^ 63 + 1` the comparisons `(a, b)` and `(b, c)` give -1 but `(a, c)`
gives 1, because the difference `0 - (2 ^ 63 + 1)` wraps to `2 ^ 63 - 1`. -/
theorem compare_dts_transitivity_counterexample :
    lsmash_compare_dts ⟨0, 0⟩ ⟨2 ^ 62, 0⟩ < 0 ∧
    lsmash_compare_dts ⟨2 ^ 62, 0⟩ ⟨2 ^ 63 + 1, 0⟩ < 0 ∧
    ¬ lsmash_compare_dts ⟨0, 0⟩ ⟨2 ^ 63 + 1, 0⟩ < 0 ∧
    lsmash_compare_dts ⟨0, 0⟩ ⟨2 ^ 63 + 1, 0⟩ = 1 ∧
    (2 ^ 63 + 1 : Nat) < 2 ^ 64 := by
  decide

/-- C17, amended: over `dts` values below `2 ^ 63` the comparison is transitive: if
`lsmash_compare_dts(a, b) < 0` and `lsmash_compare_dts(b, c) < 0` then
`lsmash_compare_dts(a, c) < 0`. -/
theorem compare_dts_transitive (a b c : lsmash_media_ts_t)
    (ha : a.dts < 2 ^ 63) (hb : b.dts < 2 ^ 63) (hc : c.dts < 2 ^ 63)
    (hab : lsmash_compare_dts a b < 0) (hbc : lsmash_compare_dts b c < 0) :
    lsmash_compare_dts a c < 0 := by
  rw [(compare_dts_iff a b ha hb).2.2.2] at hab
  rw [(compare_dts_iff b c hb hc).2.2.2] at hbc
  rw [(compare_dts_iff a c ha hc).2.2.2]
  omega

/-- Witness for the amended C17: `dts` values 1000, 2000 and 3000. -/
theorem compare_dts_transitive_witness :
    ((⟨1000, 0⟩ : lsmash_media_ts_t).dts < 2 ^ 63 ∧
      (⟨2000, 0⟩ : lsmash_media_ts_t).dts < 2 ^ 63 ∧
      (⟨3000, 0⟩ : lsmash_media_ts_t).dts < 2 ^ 63 ∧
      lsmash_compare_dts ⟨1000, 0⟩ ⟨2000, 0⟩ < 0 ∧
      lsmash_compare_dts ⟨2000, 0⟩ ⟨3000, 0⟩ < 0) ∧
    lsmash_compare_dts ⟨1000, 0⟩ ⟨3000, 0⟩ < 0 :=
  ⟨⟨by decide, by decide, by decide, by decide, by decide⟩,
    compare_dts_transitive ⟨1000, 0⟩ ⟨2000, 0⟩ ⟨3000, 0⟩ (by decide) (by decide) (by decide)
      (by decide) (by decide)⟩

/-! ## Indented printing -/

theorem ifprintf_loop_spec (indent i : Int) (out : String) (hi : i ≤ indent) :
    ifprintf_loop indent i out =
      out ++ String.mk (List.replicate (4 * (indent - i).toNat) (Char.ofNat 32)) := by
  induction i, out using ifprintf_loop.induct indent with
  | case1 i out hlt ih =>
    rw [ifprintf_loop, if_pos hlt, ih (by omega)]
    apply String.ext
    rw [String.data_append, String.data_append, String.data_append, List.append_assoc]
    congr 1
    have hk : (indent - i).toNat = (indent - (i + 1)).toNat + 1 := by omega
    rw [hk, Nat.mul_add, Nat.mul_one, Nat.add_comm, ← List.append_replicate_replicate]
    rfl
  | case2 i out hge =>
    rw [ifprintf_loop, if_neg hge]
    have hk : (indent - i).toNat = 0 := by omega
    rw [hk]
    apply String.ext
    rw [String.data_append]
    simp

theorem ifprintf_table_spec (indent : Int) (h0 : 0 ≤ indent) (h10 : indent ≤ 10) :
    subscript indent_string indent =
      some (String.mk (List.replicate (4 * indent.toNat) (Char.ofNat 32))) := by
  interval_cases indent <;> rfl

/-! ## The claim on indented printing -/

/-- C18, as the claim states it, fails for a negative `indent`: the test `indent <= 10`
sends `-1` to the table, which is then subscripted at `-1`, outside its 11 entries, so
the output is not the empty indentation the claim gives. -/
theorem ifprintf_negative_counterexample :
    lsmash_ifprintf_indent (-1) = none ∧
    lsmash_ifprintf_indent (-1) ≠
      some (String.mk (List.replicate (4 * (max (-1 : Int) 0).toNat) (Char.ofNat 32))) := by
  have h : lsmash_ifprintf_indent (-1) = none := by decide
  exact ⟨h, by rw [h]; exact fun hne => Option.noConfusion hne⟩

/-- C18, amended: for every `indent ≥ 0` the indentation `lsmash_ifprintf` writes before
the formatted text is exactly `4 * indent` spaces; for `0 ≤ indent ≤ 10` the subscript of
the 11-entry table is within bounds, and the table agrees with what the loop used for
`indent > 10` would write. -/
theorem ifprintf_indent_spaces (indent : Int) (h0 : 0 ≤ indent) :
    lsmash_ifprintf_indent indent =
      some (String.mk (List.replicate (4 * indent.toNat) (Char.ofNat 32))) ∧
    (indent ≤ 10 → indent.toNat < indent_string.length ∧
      subscript indent_string indent = some (ifprintf_loop indent 0 "")) ∧
    ifprintf_loop indent 0 "" =
      String.mk (List.replicate (4 * indent.toNat) (Char.ofNat 32)) := by
  have hloop : ifprintf_loop indent 0 "" =
      String.mk (List.replicate (4 * indent.toNat) (Char.ofNat 32)) := by
    rw [ifprintf_loop_spec indent 0 "" h0, Int.sub_zero]
    apply String.ext
    rw [String.data_append]
    rfl
  refine ⟨?_, ?_, hloop⟩
  · unfold lsmash_ifprintf_indent
    by_cases h10 : indent ≤ 10
    · rw [if_pos h10, ifprintf_table_spec indent h0 h10]
    · rw [if_neg h10, hloop]
  · intro h10
    constructor
    · have : indent_string.length = 11 := rfl
      omega
    · rw [hloop, ifprintf_table_spec indent h0 h10]

/-- Witness for the amended C18: `indent = 3`, twelve spaces from the table. -/
theorem ifprintf_indent_spaces_witness :
    (0 : Int) ≤ 3 ∧
    (lsmash_ifprintf_indent 3 =
        some (String.mk (List.replicate (4 * (3 : Int).toNat) (Char.ofNat 32))) ∧
      ((3 : Int) ≤ 10 → (3 : Int).toNat < indent_string.length ∧
        subscript indent_string 3 = some (ifprintf_loop 3 0 "")) ∧
      ifprintf_loop 3 0 "" =
        String.mk (List.replicate (4 * (3 : Int).toNat) (Char.ofNat 32))) :=
  ⟨by decide, ifprintf_indent_spaces 3 (by decide)⟩

/-! ## The source's scanner on haystacks of at most `2 ^ 31 - 17` bytes -/

theorem cmpestri_zero (a b : M128) (lb : Nat) : cmpestri a 0 b lb = 0 := by
  have h0 : intRes1 a 0 b lb 0 = true := by
    rw [intRes1_iff]
    intro i _
    simp [boolRes]
  unfold cmpestri lsbFrom
  rw [if_pos h0]

theorem naive_nil (H : List Byte) : lsmash_memmem_naive H [] = some 0 :=
  searchSpec_nil (naive_spec H [])

theorem toInt32_natAbs_small (n : Nat) (hn : n < 2 ^ 31) : (toInt32 (n : Int)).natAbs = n := by
  rw [toInt32_of_range _ (by omega) (by omega)]
  exact Int.natAbs_ofNat n

/-- With an empty needle the scanner with the source's types returns `haystack` in its
first window, for every haystack. -/
theorem sse42_int32_nil (fuel : Nat) (tmp_buf : M128) (H : List Byte) :
    lsmash_memmem_sse42_int32 (fuel + 1) tmp_buf H [] = some (some 0) := by
  have hla : (toInt32 ((0 : Nat) : Int)).natAbs = 0 := toInt32_natAbs_small 0 (by omega)
  have hg : toSizeT (toInt32 (0 + 16)) = 16 := by
    rw [toInt32_of_range _ (by omega) (by omega), toSizeT_of_range _ (by omega) (by omega)]
    omega
  have hacc : toSizeT (((0 : Nat) : Int) + ((0 : Nat) : Int)) = 0 := by
    rw [toSizeT_of_range _ (by omega) (by omega)]
    rfl
  unfold lsmash_memmem_sse42_int32
  rw [if_neg (by simp), if_neg (by simp)]
  simp only [List.length_nil]
  unfold sse42_loop_int32
  rw [hg, hla]
  simp only [cmpestri_zero, hacc]
  by_cases hguard : (16 : Int) ≤ (H.length : Int)
  · rw [if_pos hguard, if_pos (by omega)]
    simp
  · rw [if_neg hguard]
    simp only []
    rw [if_pos (by unfold toSizeT; omega)]
    simp

/-- On a haystack of at most `2 ^ 31 - 17` bytes the scanner with the source's types
returns what the scalar scanner returns, for a needle of any length. -/
theorem sse42_int32_eq_naive (fuel : Nat) (tmp_buf : M128) (H N : List Byte)
    (hbound : H.length ≤ 2 ^ 31 - 17) (hfuel : H.length < fuel) :
    lsmash_memmem_sse42_int32 fuel tmp_buf H N =
      some ((lsmash_memmem_naive H N).map Int.ofNat) := by
  rcases Nat.eq_zero_or_pos N.length with h0 | hpos
  · have hN : N = [] := List.length_eq_zero.mp h0
    subst hN
    obtain ⟨f, rfl⟩ : ∃ f, fuel = f + 1 := ⟨fuel - 1, by omega⟩
    rw [sse42_int32_nil f, naive_nil]
    rfl
  · by_cases h16 : N.length ≤ 16
    · rw [sse42_int32_eq fuel tmp_buf H N hpos h16 hbound hfuel, sse42_agrees]
    · unfold lsmash_memmem_sse42_int32
      rw [if_pos (by omega)]

theorem call_resolved_eq_naive (fuel : Nat) (f : FnPtr) (tmp_buf : M128) (H N : List Byte)
    (hf : f ≠ FnPtr.null)
    (hvec : f = FnPtr.memmem_sse42 → H.length ≤ 2 ^ 31 - 17 ∧ H.length < fuel) :
    call_lsmash_memmem fuel f tmp_buf H N =
      CallResult.returned ((lsmash_memmem_naive H N).map Int.ofNat) := by
  cases f with
  | null => exact absurd rfl hf
  | memmem_naive => rfl
  | memmem_sse42 =>
    unfold call_lsmash_memmem
    simp only []
    rw [sse42_int32_eq_naive fuel tmp_buf H N (hvec rfl).1 (hvec rfl).2]

theorem call_sse42_of_eq (fuel : Nat) (tmp_buf : M128) (H N : List Byte) (p : Option Int)
    (h : lsmash_memmem_sse42_int32 fuel tmp_buf H N = some p) :
    call_lsmash_memmem fuel FnPtr.memmem_sse42 tmp_buf H N = CallResult.returned p := by
  unfold call_lsmash_memmem
  simp only []
  rw [h]

/-! ## The source's scanner once the counter wraps -/

theorem lsbFrom_none (bits : Nat → Bool) (k j : Nat)
    (h : ∀ m, j ≤ m → m < j + k → bits m = false) : lsbFrom bits k j = 16 := by
  induction k generalizing j with
  | zero => rfl
  | succ k ih =>
    unfold lsbFrom
    rw [h j (le_refl j) (by omega)]
    simp only [Bool.false_eq_true, if_false]
    exact ih (j + 1) (fun m hm1 hm2 => h m (by omega) (by omega))

/-- A one-byte needle that equals none of the 16 bytes of the data register: no bit of
the intermediate result is set and the index is 16, whatever the declared data length. -/
theorem cmpestri_one_none (a b : M128) (lb : Nat)
    (h : ∀ j, j < 16 → a.byte 0 ≠ b.byte j) : cmpestri a 1 b lb = 16 := by
  unfold cmpestri
  apply lsbFrom_none
  intro m _ hm
  rw [← Bool.not_eq_true, intRes1_iff]
  intro hall
  have h0 := hall 0 (by omega)
  unfold boolRes at h0
  rw [if_neg (by omega)] at h0
  by_cases hlb : lb ≤ m + 0
  · rw [if_pos hlb] at h0
    exact Bool.false_ne_true h0
  · rw [if_neg hlb] at h0
    exact h m (by omega) (of_decide_eq_true h0)

theorem memcpyZ_byte (t : M128) (src : List Byte) (p n : Int) (j : Nat) (hj : j < 16)
    (hn : (j : Int) < n) : (memcpyZ t src p n).byte j = rdZ src (p + j) := by
  simp [M128.byte, memcpyZ, hj, hn]

/-- While `offset + 16` stays below `2 ^ 31` and the lanes hold no byte of the one-byte
needle, the loop with the `int` counter advances by 16; at `offset = 2 ^ 31 - 16` the sum
`offset + 16` wraps to `-2 ^ 31`, which converts to a `size_t` above any length, and the
loop is left although `haystack_len - offset` bytes remain. -/
theorem sse42_loop_int32_wrap (H : List Byte) (needle : M128)
    (hlen1 : 2 ^ 31 ≤ H.length) (hlen2 : H.length < 2 ^ 63)
    (hbytes : ∀ i, i < 2 ^ 31 → needle.byte 0 ≠ rd H i) :
    ∀ (m fuel o : Nat), o + 16 * m + 16 = 2 ^ 31 → m < fuel →
      sse42_loop_int32 H needle 1 fuel (o : Int) =
        some (LoopEnd32.fallthrough (2 ^ 31 - 16)) := by
  intro m
  induction m with
  | zero =>
    intro fuel o ho hf
    obtain ⟨f, rfl⟩ : ∃ f, fuel = f + 1 := ⟨fuel - 1, by omega⟩
    have hoz : (o : Int) = 2 ^ 31 - 16 := by omega
    have hg : toSizeT (toInt32 ((o : Int) + 16)) = 2 ^ 64 - 2 ^ 31 := by
      unfold toSizeT toInt32
      omega
    unfold sse42_loop_int32
    rw [hg, if_neg (by omega), hoz]
  | succ m ih =>
    intro fuel o ho hf
    obtain ⟨f, rfl⟩ : ∃ f, fuel = f + 1 := ⟨fuel - 1, by omega⟩
    have hg : toSizeT (toInt32 ((o : Int) + 16)) = (o : Int) + 16 := by
      rw [toInt32_of_range _ (by omega) (by omega), toSizeT_of_range _ (by omega) (by omega)]
    have hla : (toInt32 ((1 : Nat) : Int)).natAbs = 1 := toInt32_natAbs_small 1 (by omega)
    have hr : cmpestri needle 1 (loadu H o) 16 = 16 := by
      apply cmpestri_one_none
      intro j hj
      rw [loadu_byte H o j hj]
      exact hbytes (o + j) (by omega)
    have hacc : toSizeT (((16 : Nat) : Int) + ((1 : Nat) : Int)) = 17 := by
      rw [toSizeT_of_range _ (by omega) (by omega)]
      rfl
    have hstep : toInt32 (toSizeT (toSizeT (o : Int) +
        toSizeT (toSizeT (16 - ((1 : Nat) : Int)) + 1))) = ((o + 16 : Nat) : Int) := by
      rw [toSizeT_of_range (16 - ((1 : Nat) : Int)) (by omega) (by omega),
        toSizeT_of_range (16 - ((1 : Nat) : Int) + 1) (by omega) (by omega),
        toSizeT_of_range (o : Int) (by omega) (by omega),
        toSizeT_of_range _ (by omega) (by omega),
        toInt32_of_range _ (by omega) (by omega)]
      omega
    unfold sse42_loop_int32
    rw [hg, hla, loaduZ_natCast]
    simp only []
    rw [hr, hacc, hstep, if_pos (by omega), if_neg (by omega)]
    exact ih f (o + 16) (by omega) (by omega)

theorem haystack_2g_length : haystack_2g.length = 2 ^ 31 + 16 := by
  unfold haystack_2g
  rw [List.length_append, List.length_replicate]
  rfl

theorem haystack_2g_rd_Q (i : Nat) (hi : i < 2 ^ 31 + 14) : rd haystack_2g i = 81 := by
  unfold rd haystack_2g
  rw [List.getD_eq_getElem?_getD,
    List.getElem?_append_left (by rw [List.length_replicate]; exact hi),
    List.getElem?_replicate_of_lt hi]
  rfl

theorem haystack_2g_rd_Z (i : Nat) (h1 : 2 ^ 31 + 14 ≤ i) (h2 : i < 2 ^ 31 + 16) :
    rd haystack_2g i = 90 := by
  unfold rd haystack_2g
  rw [List.getD_eq_getElem?_getD,
    List.getElem?_append_right (by rw [List.length_replicate]; exact h1),
    List.length_replicate]
  have hcases : i - (2 ^ 31 + 14) = 0 ∨ i - (2 ^ 31 + 14) = 1 := by omega
  rcases hcases with h | h <;> rw [h] <;> rfl

theorem haystack_2g_matchAt (i : Nat) :
    MatchAt haystack_2g [90] i ↔ i = 2 ^ 31 + 14 ∨ i = 2 ^ 31 + 15 := by
  rw [matchAt_iff, haystack_2g_length]
  constructor
  · rintro ⟨hle, hall⟩
    have hlen : ([90] : List Byte).length = 1 := rfl
    rw [hlen] at hle
    by_contra hne
    have h0 := hall 0 (by decide)
    rw [Nat.add_zero, haystack_2g_rd_Q i (by omega)] at h0
    exact absurd h0 (by decide)
  · intro h
    have hlen : ([90] : List Byte).length = 1 := rfl
    rw [hlen]
    refine ⟨by omega, fun k hk => ?_⟩
    have hk0 : k = 0 := by omega
    subst hk0
    rw [Nat.add_zero, haystack_2g_rd_Z i (by omega) (by omega)]
    rfl

theorem naive_haystack_2g : lsmash_memmem_naive haystack_2g [90] = some (2 ^ 31 + 14) := by
  rw [naive_eq_some_iff]
  refine ⟨(haystack_2g_matchAt _).mpr (Or.inl rfl), fun j hj hm => ?_⟩
  have := (haystack_2g_matchAt j).mp hm
  omega

/-- The remainder comparison on `haystack_2g`: the register holds 16 bytes `'Q'`, the
declared length is 32, and the index is the no-match value 16. -/
theorem cmpestri_haystack_2g (tmp_buf : M128) :
    cmpestri (memcpy tmp_buf [90] 0 1) 1
      (memcpyZ (memcpy tmp_buf [90] 0 1) haystack_2g (2 ^ 31 - 16) 32) 32 = 16 := by
  have hneedle : (memcpy tmp_buf [90] 0 1).byte 0 = 90 := by
    rw [memcpy_byte tmp_buf [90] 0 1 0 (by omega) (by omega)]
    rfl
  apply cmpestri_one_none
  intro j hj
  rw [hneedle, memcpyZ_byte _ _ _ _ j hj (by omega)]
  have hcast : (2 ^ 31 - 16 + (j : Int)) = ((2 ^ 31 - 16 + j : Nat) : Int) := by omega
  rw [hcast, rdZ_natCast, haystack_2g_rd_Q _ (by omega)]
  decide

/-- On `haystack_2g` searched for `"Z"` the loop with the `int` counter is left at
`offset = 2 ^ 31 - 16` with `remain = 32`; the comparison over the 16 bytes `'Q'` of the
register gives the no-match index 16, the test `16 + 1 <= 32` of line 78 passes, and
`haystack + 2 ^ 31` is returned. -/
theorem sse42_int32_haystack_2g (tmp_buf : M128) (k : Nat) :
    sse42_loop_int32 haystack_2g (memcpy tmp_buf [90] 0 1) 1 (2 ^ 27 + k) 0 =
      some (LoopEnd32.fallthrough (2 ^ 31 - 16)) ∧
    toSizeT ((haystack_2g.length : Int) - toSizeT (2 ^ 31 - 16)) = 32 ∧
    lsmash_memmem_sse42_int32 (2 ^ 27 + k) tmp_buf haystack_2g [90] = some (some (2 ^ 31)) := by
  have hneedle : (memcpy tmp_buf [90] 0 1).byte 0 = 90 := by
    rw [memcpy_byte tmp_buf [90] 0 1 0 (by omega) (by omega)]
    rfl
  have hloop : sse42_loop_int32 haystack_2g (memcpy tmp_buf [90] 0 1) 1 (2 ^ 27 + k) 0 =
      some (LoopEnd32.fallthrough (2 ^ 31 - 16)) := by
    have h := sse42_loop_int32_wrap haystack_2g (memcpy tmp_buf [90] 0 1)
      (by rw [haystack_2g_length]; omega) (by rw [haystack_2g_length]; omega)
      (fun i hi => by
        rw [hneedle, haystack_2g_rd_Q i (by omega)]
        decide)
      (2 ^ 27 - 1) (2 ^ 27 + k) 0 (by omega) (by omega)
    rw [Nat.cast_zero] at h
    exact h
  have hremain : toSizeT ((haystack_2g.length : Int) - toSizeT (2 ^ 31 - 16)) = 32 := by
    rw [haystack_2g_length]
    unfold toSizeT
    omega
  refine ⟨hloop, hremain, ?_⟩
  have hN : ([90] : List Byte).length = 1 := rfl
  have hla : (toInt32 ((1 : Nat) : Int)).natAbs = 1 := toInt32_natAbs_small 1 (by omega)
  have hlb : (toInt32 32).natAbs = 32 := by
    rw [toInt32_of_range _ (by omega) (by omega)]
    rfl
  have hr := cmpestri_haystack_2g tmp_buf
  have hacc : toSizeT (((16 : Nat) : Int) + ((1 : Nat) : Int)) = 17 := by
    rw [toSizeT_of_range _ (by omega) (by omega)]
    rfl
  unfold lsmash_memmem_sse42_int32
  rw [hN, if_neg (by omega), if_neg (by rw [haystack_2g_length]; omega)]
  simp only []
  rw [hloop]
  simp only []
  rw [hremain, hla, hlb, hr, hacc, if_pos (by omega)]
  norm_num

/-! ## The windows of a run -/

/-- The loop that records its loads ends as `sse42_loop_int32` does, on every input. -/
theorem sse42_scan_int32_fst (H : List Byte) (needle : M128) (n : Nat) :
    ∀ (fuel : Nat) (o : Int),
      (sse42_scan_int32 H needle n fuel o).map Prod.fst = sse42_loop_int32 H needle n fuel o := by
  intro fuel
  induction fuel with
  | zero => intro o; rfl
  | succ fuel ih =>
    intro o
    unfold sse42_scan_int32 sse42_loop_int32
    simp only []
    split
    · split
      · rfl
      · rw [← ih]
        cases sse42_scan_int32 H needle n fuel
          (toInt32 (toSizeT (toSizeT o + toSizeT (toSizeT (16 - (n : Int)) + 1)))) with
        | none => rfl
        | some el => rfl
    · rfl

theorem sse42_scan_int32_eq (H : List Byte) (needle : M128) (n : Nat) (h1 : 1 ≤ n)
    (h16 : n ≤ 16) (hbound : H.length ≤ 2 ^ 31 - 17) :
    ∀ (fuel o : Nat), o ≤ H.length → H.length - o < fuel →
      sse42_scan_int32 H needle n fuel (o : Int) =
        some ((sse42_loop H needle n o).toInt32,
          List.map (fun (x : Nat) => (x : Int)) (sse42_lanes H needle n o)) := by
  intro fuel
  induction fuel with
  | zero => intro o _ hf; omega
  | succ fuel ih =>
    intro o ho hf
    have hguardv : toSizeT (toInt32 ((o : Int) + 16)) = (o : Int) + 16 := by
      rw [toInt32_of_range _ (by omega) (by omega), toSizeT_of_range _ (by omega) (by omega)]
    have hla : (toInt32 (n : Int)).natAbs = n := toInt32_natAbs_small n (by omega)
    have hr : cmpestri needle n (loadu H o) 16 ≤ 16 := cmpestri_le _ _ _ _
    have haccv : toSizeT ((cmpestri needle n (loadu H o) 16 : Int) + (n : Int)) =
        ((cmpestri needle n (loadu H o) 16 + n : Nat) : Int) := by
      rw [toSizeT_of_range _ (by omega) (by omega)]
      push_cast
      rfl
    have hstep : toInt32 (toSizeT (toSizeT (o : Int) +
        toSizeT (toSizeT (16 - (n : Int)) + 1))) = ((o + (16 - n + 1) : Nat) : Int) := by
      rw [toSizeT_of_range (16 - (n : Int)) (by omega) (by omega),
        toSizeT_of_range (16 - (n : Int) + 1) (by omega) (by omega),
        toSizeT_of_range (o : Int) (by omega) (by omega),
        toSizeT_of_range _ (by omega) (by omega),
        toInt32_of_range _ (by omega) (by omega)]
      omega
    unfold sse42_scan_int32
    rw [sse42_loop, sse42_lanes, hguardv, hla, loaduZ_natCast]
    simp only []
    rw [haccv, hstep]
    by_cases hguard : o + 16 ≤ H.length
    · rw [if_pos hguard, if_pos hguard, if_pos (by omega)]
      by_cases hacc : cmpestri needle n (loadu H o) 16 + n ≤ 16
      · rw [if_pos hacc, if_pos hacc, if_pos (by omega)]
        simp only [LoopEnd.toInt32, List.map_cons, List.map_nil]
        push_cast
        rfl
      · rw [if_neg hacc, if_neg hacc, if_neg (by omega)]
        clear hguardv hla haccv hstep hr hbound
        have hs1 : o + (16 - n + 1) ≤ H.length := by omega
        have hs2 : H.length - (o + (16 - n + 1)) < fuel := by omega
        rw [ih (o + (16 - n + 1)) hs1 hs2]
        rfl
    · rw [if_neg hguard, if_neg hguard, if_neg (by omega)]
      rfl

theorem exact_windows_ret (H : List Byte) (needle : M128) (n o : Nat)
    (hguard : o + 16 ≤ H.length) (hacc : cmpestri needle n (loadu H o) 16 + n ≤ 16) :
    exact_windows H needle n o = [Window.lane o] := by
  unfold exact_windows
  rw [sse42_lanes, sse42_loop, if_pos hguard, if_pos hguard]
  simp only []
  rw [if_pos hacc, if_pos hacc]
  rfl

theorem exact_windows_step (H : List Byte) (needle : M128) (n o : Nat)
    (hguard : o + 16 ≤ H.length) (hrej : ¬ cmpestri needle n (loadu H o) 16 + n ≤ 16) :
    exact_windows H needle n o =
      Window.lane o :: exact_windows H needle n (o + (16 - n + 1)) := by
  unfold exact_windows
  rw [sse42_lanes, sse42_loop, if_pos hguard, if_pos hguard]
  simp only []
  rw [if_neg hrej, if_neg hrej]
  rfl

theorem exact_windows_exit (H : List Byte) (needle : M128) (n o : Nat)
    (hguard : ¬ o + 16 ≤ H.length) :
    exact_windows H needle n o =
      [Window.remainder o (toSizeT ((H.length : Int) - toSizeT (o : Int)))] := by
  unfold exact_windows
  rw [sse42_lanes, sse42_loop, if_neg hguard, if_neg hguard]
  rfl

/-- A candidate that starts before the counter is covered by no later window. -/
theorem exact_windows_not_covers (H : List Byte) (needle : M128) (n o p : Nat) (hp : p < o) :
    ∀ w, w ∈ exact_windows H needle n o → Window.covers n p w = false := by
  induction o using sse42_loop.induct H needle n with
  | case1 o hguard data r hacc =>
    intro w hw
    rw [exact_windows_ret H needle n o hguard hacc, List.mem_singleton] at hw
    subst hw
    simp only [Window.covers, decide_eq_false_iff_not]
    omega
  | case2 o hguard data r hrej ih =>
    intro w hw
    rw [exact_windows_step H needle n o hguard hrej, List.mem_cons] at hw
    rcases hw with hw | hw
    · subst hw
      simp only [Window.covers, decide_eq_false_iff_not]
      omega
    · exact ih (by omega) w hw
  | case3 o hguard =>
    intro w hw
    rw [exact_windows_exit H needle n o hguard, List.mem_singleton] at hw
    subst hw
    simp only [Window.covers, decide_eq_false_iff_not]
    omega

theorem exact_windows_countP_zero (H : List Byte) (needle : M128) (n o p : Nat) (hp : p < o) :
    List.countP (Window.covers n p) (exact_windows H needle n o) = 0 := by
  rw [List.countP_eq_zero]
  intro w hw
  rw [exact_windows_not_covers H needle n o p hp w hw]
  exact Bool.false_ne_true

/-- No candidate is covered by two windows. -/
theorem exact_windows_countP_le_one (H : List Byte) (needle : M128) (n o p : Nat) :
    List.countP (Window.covers n p) (exact_windows H needle n o) ≤ 1 := by
  induction o using sse42_loop.induct H needle n with
  | case1 o hguard data r hacc =>
    rw [exact_windows_ret H needle n o hguard hacc]
    exact List.countP_le_length _
  | case2 o hguard data r hrej ih =>
    rw [exact_windows_step H needle n o hguard hrej, List.countP_cons]
    by_cases hc : Window.covers n p (Window.lane o) = true
    · have hlt : p < o + (16 - n + 1) := by
        simp only [Window.covers, decide_eq_true_eq] at hc
        omega
      rw [exact_windows_countP_zero H needle n _ p hlt, if_pos hc]
    · rw [if_neg hc]
      exact ih
  | case3 o hguard =>
    rw [exact_windows_exit H needle n o hguard]
    exact List.countP_le_length _

/-- A candidate at or after the counter is covered by exactly one window, unless the loop
returns a position before it. -/
theorem exact_windows_countP_eq_one (H : List Byte) (needle : M128) (n : Nat)
    (h16 : n ≤ 16) (hlen : H.length < 2 ^ 63) (o p : Nat) (hop : o ≤ p)
    (hp : p + n ≤ H.length)
    (hreach : ∀ q, sse42_loop H needle n o = LoopEnd.ret q → p ≤ q) :
    List.countP (Window.covers n p) (exact_windows H needle n o) = 1 := by
  induction o using sse42_loop.induct H needle n with
  | case1 o hguard data r hacc =>
    rw [exact_windows_ret H needle n o hguard hacc]
    have hq : p ≤ o + r := by
      apply hreach
      rw [sse42_loop, if_pos hguard]
      simp only []
      rw [if_pos hacc]
    have hc : Window.covers n p (Window.lane o) = true := by
      simp only [Window.covers, decide_eq_true_eq]
      omega
    simp [List.countP_cons, hc]
  | case2 o hguard data r hrej ih =>
    rw [exact_windows_step H needle n o hguard hrej, List.countP_cons]
    have hloop : sse42_loop H needle n o = sse42_loop H needle n (o + (16 - n + 1)) := by
      rw [sse42_loop, if_pos hguard]
      simp only []
      rw [if_neg hrej]
    by_cases hlt : p < o + (16 - n + 1)
    · have hc : Window.covers n p (Window.lane o) = true := by
        simp only [Window.covers, decide_eq_true_eq]
        omega
      rw [exact_windows_countP_zero H needle n _ p hlt, if_pos hc]
    · have hc : ¬ Window.covers n p (Window.lane o) = true := by
        simp only [Window.covers, decide_eq_true_eq]
        omega
      rw [if_neg hc]
      exact ih (by omega) (fun q hq => hreach q (hloop ▸ hq))
  | case3 o hguard =>
    rw [exact_windows_exit H needle n o hguard]
    have hrem : toSizeT ((H.length : Int) - toSizeT (o : Int)) = (H.length : Int) - (o : Int) := by
      rw [toSizeT_of_range (o : Int) (by omega) (by omega),
        toSizeT_of_range _ (by omega) (by omega)]
    have hc : Window.covers n p
        (Window.remainder o (toSizeT ((H.length : Int) - toSizeT (o : Int)))) = true := by
      rw [hrem]
      simp only [Window.covers, decide_eq_true_eq]
      omega
    simp [List.countP_cons, hc]

theorem sse42_of_loop_ret (tmp_buf : M128) (H N : List Byte) (h16 : N.length ≤ 16)
    (hle : N.length ≤ H.length) (q : Nat)
    (hq : sse42_loop H (memcpy tmp_buf N 0 N.length) N.length 0 = LoopEnd.ret q) :
    lsmash_memmem_sse42 tmp_buf H N = some q := by
  unfold lsmash_memmem_sse42
  rw [if_neg (by omega), if_neg (by omega)]
  simp only []
  rw [hq]

/-! ## The claims on the vector scanner and the gate -/

/-- C2, evaluated where the code departs from it: on `2 ^ 31 + 14` bytes `'Q'` followed by
`"ZZ"`, searched for `"Z"`, the vector scanner with the `int` counter of the source
returns `haystack + 2 ^ 31` while the scalar scanner returns `haystack + 2 ^ 31 + 14`. -/
theorem sse42_differs_from_naive (tmp_buf : M128) (k : Nat) :
    haystack_2g.length = 2 ^ 31 + 16 ∧
    lsmash_memmem_sse42_int32 (2 ^ 27 + k) tmp_buf haystack_2g [90] = some (some (2 ^ 31)) ∧
    lsmash_memmem_naive haystack_2g [90] = some (2 ^ 31 + 14) :=
  ⟨haystack_2g_length, (sse42_int32_haystack_2g tmp_buf k).2.2, naive_haystack_2g⟩

/-- C3, as the claim states it, fails: at process start the pointer `lsmash_memmem` is
null, nothing resolves it on a call, and a call through it yields no result, so not the
scalar scanner's answer. -/
theorem gate_unresolved_counterexample :
    call_lsmash_memmem 4 Proc.start.lsmash_memmem (fun _ => 0) [97, 98, 99] [98] =
      CallResult.undefined ∧
    call_lsmash_memmem 4 Proc.start.lsmash_memmem (fun _ => 0) [97, 98, 99] [98] ≠
      CallResult.returned ((lsmash_memmem_naive [97, 98, 99] [98]).map Int.ofNat) := by
  constructor
  · rfl
  · intro h
    exact CallResult.noConfusion h

/-- C3, amended: in every resolved state of the binding a call through `lsmash_memmem`
returns the scalar scanner's result, for every input when the scalar scanner is bound and
for every input whose haystack has at most `2 ^ 31 - 17` bytes when the vector scanner is
bound (its loop then ends within any iteration bound above the haystack length). -/
theorem gate_resolved_returns_naive (fuel : Nat) (f : FnPtr) (tmp_buf : M128)
    (H N : List Byte) (hf : f ≠ FnPtr.null)
    (hvec : f = FnPtr.memmem_sse42 → H.length ≤ 2 ^ 31 - 17 ∧ H.length < fuel) :
    call_lsmash_memmem fuel f tmp_buf H N =
      CallResult.returned ((lsmash_memmem_naive H N).map Int.ofNat) :=
  call_resolved_eq_naive fuel f tmp_buf H N hf hvec

/-- Witness for the amended C3: the binding to the vector scanner, `"abc"` searched for
`"b"`. -/
theorem gate_resolved_returns_naive_witness :
    (FnPtr.memmem_sse42 ≠ FnPtr.null ∧
      (FnPtr.memmem_sse42 = FnPtr.memmem_sse42 →
        ([97, 98, 99] : List Byte).length ≤ 2 ^ 31 - 17 ∧
        ([97, 98, 99] : List Byte).length < 4)) ∧
    call_lsmash_memmem 4 FnPtr.memmem_sse42 (fun _ => 0) [97, 98, 99] [98] =
      CallResult.returned ((lsmash_memmem_naive [97, 98, 99] [98]).map Int.ofNat) :=
  ⟨⟨by decide, fun _ => ⟨by decide, by decide⟩⟩,
    gate_resolved_returns_naive 4 FnPtr.memmem_sse42 (fun _ => 0) [97, 98, 99] [98]
      (by decide) (fun _ => ⟨by decide, by decide⟩)⟩

/-- C4, evaluated where the code departs from it: after `lsmash_init_sse` on a processor
that reports the vector instructions, the needle `"Z"` occurs in `haystack_2g` at the
offsets `2 ^ 31 + 14` and `2 ^ 31 + 15`, and the call through `lsmash_memmem` returns
`haystack + 2 ^ 31`, which is not an occurrence and not the smallest of them. -/
theorem gate_not_leftmost (tmp_buf : M128) (k : Nat) :
    (MatchAt haystack_2g [90] (2 ^ 31 + 14) ∧ MatchAt haystack_2g [90] (2 ^ 31 + 15)) ∧
    (lsmash_init_sse (fun _ _ => 1048576) Proc.start).lsmash_memmem = FnPtr.memmem_sse42 ∧
    call_lsmash_memmem (2 ^ 27 + k)
      (lsmash_init_sse (fun _ _ => 1048576) Proc.start).lsmash_memmem tmp_buf
      haystack_2g [90] = CallResult.returned (some (2 ^ 31)) ∧
    ¬ MatchAt haystack_2g [90] (2 ^ 31) := by
  have hbind : (lsmash_init_sse (fun _ _ => 1048576) Proc.start).lsmash_memmem =
      FnPtr.memmem_sse42 := by decide
  refine ⟨⟨(haystack_2g_matchAt _).mpr (Or.inl rfl), (haystack_2g_matchAt _).mpr (Or.inr rfl)⟩,
    hbind, ?_, fun hm => ?_⟩
  · rw [hbind]
    exact call_sse42_of_eq _ _ _ _ _ (sse42_int32_haystack_2g tmp_buf k).2.2
  · have := (haystack_2g_matchAt _).mp hm
    omega

/-- C8, evaluated where the code departs from it: the one-byte needle `"Z"` occurs in
`haystack_2g` at offset `2 ^ 31 + 14`, and the vector scanner with the `int` counter of
the source returns `haystack + 2 ^ 31`, where the byte is `'Q'`: what it returns is not a
match. -/
theorem sse42_returns_non_occurrence (tmp_buf : M128) (k : Nat) :
    (1 ≤ ([90] : List Byte).length ∧ ([90] : List Byte).length ≤ 16 ∧
      MatchAt haystack_2g [90] (2 ^ 31 + 14)) ∧
    lsmash_memmem_sse42_int32 (2 ^ 27 + k) tmp_buf haystack_2g [90] = some (some (2 ^ 31)) ∧
    rd haystack_2g (2 ^ 31) = 81 ∧ rd [90] 0 = 90 :=
  ⟨⟨by decide, by decide, (haystack_2g_matchAt _).mpr (Or.inl rfl)⟩,
    (sse42_int32_haystack_2g tmp_buf k).2.2, haystack_2g_rd_Q _ (by omega), rfl⟩

/-- C12, evaluated where the code departs from it: on `haystack_2g` the remainder
comparison finds no byte `'Z'` among the 16 bytes of the register and gives the no-match
index 16; with `remain = 32` the test `16 + 1 <= remain` of line 78 accepts it, and the
offset `2 ^ 31` is returned although the needle does not occur there. -/
theorem sse42_accepts_no_match_index (tmp_buf : M128) (k : Nat) :
    ([90] : List Byte).length ≤ 16 ∧
    cmpestri (memcpy tmp_buf [90] 0 1) 1
      (memcpyZ (memcpy tmp_buf [90] 0 1) haystack_2g (2 ^ 31 - 16) 32) 32 = 16 ∧
    lsmash_memmem_sse42_int32 (2 ^ 27 + k) tmp_buf haystack_2g [90] = some (some (2 ^ 31)) ∧
    ¬ (2 ^ 31 + ([90] : List Byte).length ≤ haystack_2g.length ∧
      (haystack_2g.drop (2 ^ 31)).take ([90] : List Byte).length = [90]) := by
  refine ⟨by decide, cmpestri_haystack_2g tmp_buf, (sse42_int32_haystack_2g tmp_buf k).2.2,
    fun hm => ?_⟩
  have := (haystack_2g_matchAt (2 ^ 31)).mp hm
  omega

/-- C13, evaluated where the code departs from it: with a needle of one byte and the
haystack `haystack_2g`, the stride loop is left with `offset = 2 ^ 31 - 16` and a
remainder `haystack_len - offset` of 32 bytes, more than the 15 the claim gives and more
than the 16 bytes of the staging buffer the remainder is copied to. -/
theorem sse42_remainder_exceeds_lane (tmp_buf : M128) (k : Nat) :
    (1 ≤ ([90] : List Byte).length ∧ ([90] : List Byte).length ≤ 16 ∧
      ([90] : List Byte).length ≤ haystack_2g.length) ∧
    ∃ o, sse42_loop_int32 haystack_2g (memcpy tmp_buf [90] 0 1) ([90] : List Byte).length
        (2 ^ 27 + k) 0 = some (LoopEnd32.fallthrough o) ∧
      o = 2 ^ 31 - 16 ∧
      ¬ toSizeT ((haystack_2g.length : Int) - toSizeT o) ≤ 15 ∧
      ¬ toSizeT ((haystack_2g.length : Int) - toSizeT o) ≤ 16 := by
  have h := sse42_int32_haystack_2g tmp_buf k
  refine ⟨⟨by decide, by decide, ?_⟩, 2 ^ 31 - 16, h.1, rfl, ?_, ?_⟩
  · rw [haystack_2g_length]
    have : ([90] : List Byte).length = 1 := rfl
    omega
  · rw [h.2.1]
    decide
  · rw [h.2.1]
    decide

/-- C14, as the claim states it, fails: the scan stops at the first accepted match, so a
candidate past it has no examined window. In 17 zero bytes searched for one zero byte
the first lane returns offset 0; the only window examined is the lane at 0, and the
candidate `p = 16`, which only the remainder would hold, is covered by no window. -/
theorem sse42_coverage_counterexample :
    16 + ([0] : List Byte).length ≤ (List.replicate 17 0 : List Byte).length ∧
    lsmash_memmem_sse42_int32 18 (fun _ => 0) (List.replicate 17 0) [0] = some (some 0) ∧
    sse42_scan_int32 (List.replicate 17 0) (memcpy (fun _ => 0) [0] 0 1) 1 18 0 =
      some (LoopEnd32.ret 0, [0]) ∧
    windows_of 17 (LoopEnd32.ret 0) [0] = [Window.lane 0] ∧
    List.countP (Window.covers 1 16) (windows_of 17 (LoopEnd32.ret 0) [0]) = 0 := by
  refine ⟨by decide, ?_, ?_, rfl, by decide⟩
  · rw [sse42_int32_eq_naive 18 _ _ _ (by decide) (by decide), 
      (naive_eq_some_iff _ _ 0).mpr ⟨by decide, by decide⟩]
    rfl
  · decide

/-- C14, amended: with a needle of `n` bytes, `1 ≤ n ≤ 16`, and a haystack of at most
`2 ^ 31 - 17` bytes, the run of the stride loop ends (within any iteration bound above the
haystack length) and its `k`-th full lane starts at offset `k * (17 - n)`; no candidate
start `p ≤ haystack_len - n` is covered by two examined windows; and every such `p` that
does not lie past the offset the scanner returns is covered by exactly one, where a full
lane at `o` covers `o ≤ p ≤ o + 16 - n` and the remainder covers the starts at or past
the loop's final offset. -/
theorem sse42_window_coverage (fuel : Nat) (tmp_buf : M128) (H N : List Byte)
    (h1 : 1 ≤ N.length) (h16 : N.length ≤ 16) (hbound : H.length ≤ 2 ^ 31 - 17)
    (hfuel : H.length < fuel) :
    ∃ e lanes,
      sse42_scan_int32 H (memcpy tmp_buf N 0 N.length) N.length fuel 0 = some (e, lanes) ∧
      (∀ k x, lanes[k]? = some x → x = ((k * (17 - N.length) : Nat) : Int)) ∧
      (∀ p, p + N.length ≤ H.length →
        List.countP (Window.covers N.length p) (windows_of H.length e lanes) ≤ 1) ∧
      (∀ p, p + N.length ≤ H.length →
        (∀ q, lsmash_memmem_sse42_int32 fuel tmp_buf H N = some (some q) → (p : Int) ≤ q) →
        List.countP (Window.covers N.length p) (windows_of H.length e lanes) = 1) := by
  have hscan := sse42_scan_int32_eq H (memcpy tmp_buf N 0 N.length) N.length h1 h16 hbound
    fuel 0 (Nat.zero_le _) (by omega)
  rw [Nat.cast_zero] at hscan
  refine ⟨_, _, hscan, ?_, ?_, ?_⟩
  · intro k x hx
    rw [List.getElem?_map] at hx
    cases hy : (sse42_lanes H (memcpy tmp_buf N 0 N.length) N.length 0)[k]? with
    | none => rw [hy] at hx; exact Option.noConfusion hx
    | some y =>
      rw [hy] at hx
      have hxy : (y : Int) = x := Option.some.inj hx
      have := sse42_lanes_getElem H _ N.length 0 k y hy
      rw [← hxy, this, Nat.zero_add, show 16 - N.length + 1 = 17 - N.length by omega]
  · intro p _
    exact exact_windows_countP_le_one H _ N.length 0 p
  · intro p hp hreach
    apply exact_windows_countP_eq_one H _ N.length h16 (by omega) 0 p (Nat.zero_le _) hp
    intro q hq
    have hres : lsmash_memmem_sse42_int32 fuel tmp_buf H N = some (some (q : Int)) := by
      rw [sse42_int32_eq fuel tmp_buf H N h1 h16 hbound hfuel,
        sse42_of_loop_ret tmp_buf H N h16 (by omega) q hq]
      rfl
    have := hreach q hres
    omega

/-- Witness for the amended C14: a 5-byte needle in a 28-byte haystack, with an iteration
bound of 29. -/
theorem sse42_window_coverage_witness :
    (1 ≤ ([1, 2, 3, 4, 5] : List Byte).length ∧ ([1, 2, 3, 4, 5] : List Byte).length ≤ 16 ∧
      (List.replicate 14 81 ++ [1, 2, 3, 4, 5] ++ List.replicate 9 81 : List Byte).length ≤
        2 ^ 31 - 17 ∧
      (List.replicate 14 81 ++ [1, 2, 3, 4, 5] ++ List.replicate 9 81 : List Byte).length <
        29) ∧
    ∃ e lanes,
      sse42_scan_int32 (List.replicate 14 81 ++ [1, 2, 3, 4, 5] ++ List.replicate 9 81)
        (memcpy (fun _ => 0) [1, 2, 3, 4, 5] 0 ([1, 2, 3, 4, 5] : List Byte).length)
        ([1, 2, 3, 4, 5] : List Byte).length 29 0 = some (e, lanes) ∧
      (∀ k x, lanes[k]? = some x →
        x = ((k * (17 - ([1, 2, 3, 4, 5] : List Byte).length) : Nat) : Int)) ∧
      (∀ p, p + ([1, 2, 3, 4, 5] : List Byte).length ≤
          (List.replicate 14 81 ++ [1, 2, 3, 4, 5] ++ List.replicate 9 81 : List Byte).length →
        List.countP (Window.covers ([1, 2, 3, 4, 5] : List Byte).length p)
          (windows_of
            (List.replicate 14 81 ++ [1, 2, 3, 4, 5] ++ List.replicate 9 81 : List Byte).length
            e lanes) ≤ 1) ∧
      (∀ p, p + ([1, 2, 3, 4, 5] : List Byte).length ≤
          (List.replicate 14 81 ++ [1, 2, 3, 4, 5] ++ List.replicate 9 81 : List Byte).length →
        (∀ q, lsmash_memmem_sse42_int32 29 (fun _ => 0)
          (List.replicate 14 81 ++ [1, 2, 3, 4, 5] ++ List.replicate 9 81)
          [1, 2, 3, 4, 5] = some (some q) → (p : Int) ≤ q) →
        List.countP (Window.covers ([1, 2, 3, 4, 5] : List Byte).length p)
          (windows_of
            (List.replicate 14 81 ++ [1, 2, 3, 4, 5] ++ List.replicate 9 81 : List Byte).length
            e lanes) = 1) :=
  ⟨⟨by decide, by decide, by decide, by decide⟩,
    sse42_window_coverage 29 (fun _ => 0)
      (List.replicate 14 81 ++ [1, 2, 3, 4, 5] ++ List.replicate 9 81) [1, 2, 3, 4, 5]
      (by decide) (by decide) (by decide) (by decide)⟩

end LSmash
